import Mathlib

/-!
# Instant-finality consensus core: finality ladder, block header state, vote accumulator

A shallow embedding of

* `block_header_state_core::next`, `block_header_state::next` and
  `block_header_state::is_needed`
  (`libraries/chain/block_header_state.cpp`, `block_header_state.hpp`),
* `pending_quorum_certificate`, `view_number`, `compute_height`, `get_digest_to_sign` and
  `hs_proposal_message` (`libraries/chain/include/eosio/chain/hotstuff/hotstuff.hpp`),
* `chain_pacemaker::get_state` (`libraries/hotstuff/chain_pacemaker.cpp`),
* `fork_database::fetch_branch_from`
  (`libraries/chain/include/eosio/chain/fork_database.hpp`),

followed by the properties established about them.

Block numbers are `uint32_t` in the source.  The ladder only copies and compares
them, so they are embedded as `Nat`; every statement below therefore holds in
particular for all 32-bit values.
-/

namespace eosio.chain

/-! ## Definitions -/

/-- Exception kinds raised through `EOS_ASSERT` in the embedded code. -/
inductive chain_exception where
  | block_validate_exception
  deriving DecidableEq, Repr

/-- The struct `block_header_state_core` of `block_header_state.hpp`.
`finalizer_policy_generation` has no initialiser in the source. -/
structure block_header_state_core where
  last_final_block_num : Nat := 0
  final_on_strong_qc_block_num : Option Nat := none
  last_qc_block_num : Option Nat := none
  finalizer_policy_generation : Nat
  deriving DecidableEq, Repr

/-- The comparison `value == opt` of a value with a `std::optional`:
true only when `opt` is engaged and holds `value`. -/
def value_eq_optional (value : Nat) (opt : Option Nat) : Bool :=
  match opt with
  | some x => value == x
  | none => false

/-- The comparison `value > opt` of a value with a `std::optional`:
a disengaged optional is below every value. -/
def value_gt_optional (value : Nat) (opt : Option Nat) : Bool :=
  match opt with
  | some x => decide (value > x)
  | none => true

/-- The function `block_header_state_core::next` of `block_header_state.cpp`.
A failed `EOS_ASSERT` is the `error` result. -/
def block_header_state_core.next (self : block_header_state_core)
    (last_qc_block_num : Nat) (is_last_qc_strong : Bool) :
    Except chain_exception block_header_state_core :=
  -- no state change if last_qc_block_num is the same
  if value_eq_optional last_qc_block_num self.last_qc_block_num then
    .ok self
  else if !(value_gt_optional last_qc_block_num self.last_qc_block_num) then
    .error .block_validate_exception
  else
    let old_last_qc_block_num := self.last_qc_block_num
    let old_final_on_strong_qc_block_num := self.final_on_strong_qc_block_num
    let result := self
    let result :=
      if is_last_qc_strong then
        -- block with old final_on_strong_qc_block_num becomes irreversible
        let result :=
          match old_final_on_strong_qc_block_num with
          | some f => { result with last_final_block_num := f }
          | none => result
        -- next block which can become irreversible is the block with old last_qc_block_num
        match old_last_qc_block_num with
        | some q => { result with final_on_strong_qc_block_num := some q }
        | none => result
      else
        -- new final_on_strong_qc_block_num should not be present
        { result with final_on_strong_qc_block_num := none }
    -- new last_qc_block_num is always the input last_qc_block_num
    .ok { result with last_qc_block_num := some last_qc_block_num }

/-- The ordering `last_final_block_num ≤ final_on_strong_qc_block_num ≤ last_qc_block_num`,
each inequality being required when both of its sides are present
(`last_final_block_num` always is). -/
def ordering_invariant (L : block_header_state_core) : Prop :=
  (∀ f, L.final_on_strong_qc_block_num = some f → L.last_final_block_num ≤ f) ∧
  (∀ f q, L.final_on_strong_qc_block_num = some f → L.last_qc_block_num = some q → f ≤ q)

/-- The part of the ladder's shape that the ordering leaves open: a candidate
block is only recorded together with a QC block, and the final block is not
above the QC block. -/
def qc_anchored (L : block_header_state_core) : Prop :=
  (∀ f, L.final_on_strong_qc_block_num = some f → ∃ q, L.last_qc_block_num = some q) ∧
  (∀ q, L.last_qc_block_num = some q → L.last_final_block_num ≤ q)

/-! ### Block header state -/

/-- Modelled from the spec: the record `qc_info_t` (`instant_finality_extension.hpp`
is not among the sources), `qc_info := { last_qc_block_num, is_last_qc_strong }`. -/
structure qc_info_t where
  last_qc_block_num : Nat
  is_last_qc_strong : Bool
  deriving DecidableEq, Repr

/-- Modelled from the spec: the record `finalizer_policy` (`finalizer_policy.hpp` is
not among the sources), `new_finalizer_policy := { generation, threshold, finalizers[] }`,
the committee being an ordered sequence of (key, weight) pairs. -/
structure finalizer_policy where
  generation : Nat
  threshold : Nat
  finalizers : List (Nat × Nat)
  deriving DecidableEq, Repr

/-- Modelled from the spec: the record `proposer_policy` (its header is not among the
sources), `new_proposer_policy := { proposer_schedule }`; producers are kept as names. -/
structure proposer_policy where
  proposer_schedule : List Nat
  deriving DecidableEq, Repr

/-- Modelled from the spec: the record `instant_finality_extension`
(`instant_finality_extension.hpp` is not among the sources), whose payload is
`{ qc_info?, new_finalizer_policy?, new_proposer_policy? }`. -/
structure instant_finality_extension where
  qc_info : Option qc_info_t
  new_finalizer_policy : Option finalizer_policy
  new_proposer_policy : Option proposer_policy
  deriving DecidableEq, Repr

/-- An entry of `header_extensions`.  The source stores the pair of the extension id
and the packed payload; the entry is kept here as the tagged, unpacked payload. -/
inductive block_header_extension where
  | instant_finality (e : instant_finality_extension)
  deriving DecidableEq, Repr

/-- The fields of `block_header` that `block_header_state::next` sets; time stamps,
names, ids and digests are kept as numbers.  The remaining fields of the source
struct are left value-initialised by the designated initialiser. -/
structure block_header where
  timestamp : Nat := 0
  producer : Nat := 0
  previous : Nat := 0
  transaction_mroot : Nat := 0
  action_mroot : Nat := 0
  header_extensions : List block_header_extension := []
  deriving DecidableEq, Repr

/-- The struct `block_header_state_input` together with its base `building_block_input`. -/
structure block_header_state_input where
  parent_id : Nat
  timestamp : Nat
  producer : Nat
  new_protocol_feature_activations : List Nat
  transaction_mroot : Nat
  action_mroot : Nat
  new_proposer_policy : Option proposer_policy
  new_finalizer_policy : Option finalizer_policy
  qc_info : Option qc_info_t
  deriving DecidableEq, Repr

/-- The data members of `block_header_state`.  Shared pointers are optional values
(`none` is the null pointer), the flat maps are association lists and the two
Merkle accumulators are kept as their lists of leaves. -/
structure block_header_state where
  id : Nat := 0
  header : block_header := {}
  activated_protocol_features : Option (List Nat) := none
  core : block_header_state_core
  proposal_mtree : List Nat := []
  finality_mtree : List Nat := []
  finalizer_policy : Option eosio.chain.finalizer_policy := none
  proposer_policy : Option eosio.chain.proposer_policy := none
  proposer_policies : List (Nat × eosio.chain.proposer_policy) := []
  finalizer_policies : List (Nat × eosio.chain.finalizer_policy) := []
  deriving DecidableEq, Repr

/-- The helper `emplace_extension`: the entry goes after the entries whose id is not
greater than its own, which for the single kind of entry kept here is the end. -/
def emplace_extension (exts : List block_header_extension) (e : block_header_extension) :
    List block_header_extension :=
  exts ++ [e]

/-- The function `block_header_state::next` of `block_header_state.cpp`.

`generation_bits` is the width of the unsigned field `finalizer_policy::generation`,
whose declaration is not among the sources; `++` wraps at that width.  The source
increments the generation inside `input` and then moves the policy into the
extension; the state in which the caller's `input` is left is not tracked. -/
def block_header_state.next (generation_bits : Nat) (self : block_header_state)
    (input : block_header_state_input) : Except chain_exception block_header_state :=
  -- header
  let header : block_header :=
    { timestamp := input.timestamp
      producer := input.producer
      previous := input.parent_id
      transaction_mroot := input.transaction_mroot
      action_mroot := input.action_mroot }
  -- core
  let core : Except chain_exception block_header_state_core :=
    match input.qc_info with
    | some qc => self.core.next qc.last_qc_block_num qc.is_last_qc_strong
    | none => .ok self.core
  match core with
  | .error e => .error e
  | .ok core =>
    -- add block header extensions
    let new_finalizer_policy : Option eosio.chain.finalizer_policy :=
      match input.new_finalizer_policy with
      | some p => some { p with generation := (p.generation + 1) % 2 ^ generation_bits }
      | none => none
    let qc_info : Option qc_info_t := input.qc_info
    let ext : instant_finality_extension :=
      { qc_info := qc_info
        new_finalizer_policy := new_finalizer_policy
        new_proposer_policy := input.new_proposer_policy }
    .ok { header :=
            { header with
              header_extensions :=
                emplace_extension header.header_extensions (.instant_finality ext) }
          core := core }

/-- The instant-finality extension carried by a header, if any. -/
def block_header.instant_finality (h : block_header) : Option instant_finality_extension :=
  h.header_extensions.findSome? fun
    | .instant_finality e => some e

/-! ### Vote accumulator -/

/-- The enumeration `pending_quorum_certificate::state_t`. -/
inductive state_t where
  | unrestricted
  | restricted
  | weak_achieved
  | weak_final
  | strong
  deriving DecidableEq, Repr

/-- The enumeration `vote_status`. -/
inductive vote_status where
  | success
  | duplicate
  | unknown_public_key
  | invalid_signature
  | unknown_block
  deriving DecidableEq, Repr

/-- The BLS operations used by the accumulator, which live outside this code:
signature verification and aggregation.  Keys and signatures are kept as numbers,
digests as byte lists. -/
structure bls_primitives where
  verify : Nat → List Nat → Nat → Bool
  aggregate : Nat → Nat → Nat

/-- The struct `pending_quorum_certificate::votes_t`: a bitset indexed by finalizer
position and the running aggregated signature. -/
structure votes_t where
  _bitset : List Bool := []
  _sig : Nat := 0
  deriving DecidableEq, Repr

/-- The member `votes_t::resize`. -/
def votes_t.resize (v : votes_t) (num_finalizers : Nat) : votes_t :=
  { v with _bitset := v._bitset.take num_finalizers ++
                      List.replicate (num_finalizers - v._bitset.length) false }

/-- The member `votes_t::count`. -/
def votes_t.count (v : votes_t) : Nat :=
  v._bitset.count true

/-- The data members of `pending_quorum_certificate` (the mutex apart), with the
initialisers of the class declaration. -/
structure pending_quorum_certificate where
  _quorum : Nat := 0
  _max_weak_sum_before_weak_final : Nat := 0
  _state : state_t := .unrestricted
  _strong_sum : Nat := 0
  _weak_sum : Nat := 0
  _weak_votes : votes_t := {}
  _strong_votes : votes_t := {}
  deriving DecidableEq, Repr

/-- Modelled from the spec: the constructor
`pending_quorum_certificate(num_finalizers, quorum, max_weak_sum_before_weak_final)`,
whose body (`hotstuff.cpp`) is not among the sources: a fresh accumulator with the two
thresholds, zero sums, state `unrestricted` and two empty bitsets of committee size. -/
def pending_quorum_certificate.create (num_finalizers quorum
    max_weak_sum_before_weak_final : Nat) : pending_quorum_certificate :=
  { _quorum := quorum
    _max_weak_sum_before_weak_final := max_weak_sum_before_weak_final
    _weak_votes := votes_t.resize {} num_finalizers
    _strong_votes := votes_t.resize {} num_finalizers }

/-- Modelled from the spec: the state transition table of the vote accumulator
(section 4.1), whose code (`add_strong_vote`, `add_weak_vote` in `hotstuff.cpp`) is
not among the sources.  The table is read once per accepted vote, its rows in the
order written; a state with no row whose condition holds stays as it is. -/
def transition (quorum max_weak_sum_before_weak_final strong_sum weak_sum : Nat) :
    state_t → state_t
  | .unrestricted =>
    if strong_sum ≥ quorum then .strong
    else if weak_sum + strong_sum ≥ quorum ∧ weak_sum ≤ max_weak_sum_before_weak_final then
      .weak_achieved
    else if weak_sum > max_weak_sum_before_weak_final then .restricted
    else .unrestricted
  | .weak_achieved =>
    if strong_sum ≥ quorum then .strong
    else if weak_sum > max_weak_sum_before_weak_final then .weak_final
    else .weak_achieved
  | .restricted =>
    if weak_sum + strong_sum ≥ quorum then .weak_final else .restricted
  | .weak_final => .weak_final
  | .strong => .strong

/-- Modelled from the spec: the operation
`add_vote(strong, digest, finalizer_index, pubkey, sig, weight) → (status, state_changed)`
of section 4.1, whose body (`hotstuff.cpp`) is not among the sources; the signature and
the fields are those of the class declaration in `hotstuff.hpp`.  Steps: verify the
signature, reject a vote whose bit is already set, set the bit, aggregate the signature
and add the weight to the sum of the vote's flavor, recompute the state from the table,
return `(success, state != prior_state)`.  A rejected vote leaves the accumulator as it
was.  The result is the returned pair and the accumulator after the call. -/
def pending_quorum_certificate.add_vote (bls : bls_primitives)
    (self : pending_quorum_certificate) (strong : Bool) (proposal_digest : List Nat)
    (index : Nat) (pubkey : Nat) (sig : Nat) (weight : Nat) :
    (vote_status × Bool) × pending_quorum_certificate :=
  if !(bls.verify pubkey proposal_digest sig) then
    ((.invalid_signature, false), self)
  else
    let votes := if strong then self._strong_votes else self._weak_votes
    if votes._bitset.getD index false then
      ((.duplicate, false), self)
    else
      let votes : votes_t :=
        { _bitset := votes._bitset.set index true
          _sig := bls.aggregate votes._sig sig }
      let accumulated : pending_quorum_certificate :=
        if strong then
          { self with _strong_votes := votes, _strong_sum := self._strong_sum + weight }
        else
          { self with _weak_votes := votes, _weak_sum := self._weak_sum + weight }
      let state := transition accumulated._quorum accumulated._max_weak_sum_before_weak_final
        accumulated._strong_sum accumulated._weak_sum accumulated._state
      ((.success, decide (state ≠ self._state)), { accumulated with _state := state })

/-- Modelled from the spec: the member `is_quorum_met` (`hotstuff.cpp` is not among the
sources), true iff the state is `weak_achieved`, `weak_final` or `strong`. -/
def pending_quorum_certificate.is_quorum_met (self : pending_quorum_certificate) : Bool :=
  match self._state with
  | .weak_achieved | .weak_final | .strong => true
  | .unrestricted | .restricted => false

/-- The arguments of one call of `add_vote`. -/
structure vote_call where
  strong : Bool
  proposal_digest : List Nat
  index : Nat
  pubkey : Nat
  sig : Nat
  weight : Nat
  deriving DecidableEq, Repr

/-- The accumulator after a sequence of `add_vote` calls, made in the order of the list. -/
def pending_quorum_certificate.add_votes (bls : bls_primitives)
    (self : pending_quorum_certificate) : List vote_call → pending_quorum_certificate
  | [] => self
  | c :: cs =>
    pending_quorum_certificate.add_votes bls
      (self.add_vote bls c.strong c.proposal_digest c.index c.pubkey c.sig c.weight).2 cs

/-- The edges of the state transition table of section 4.1. -/
def table_edge : state_t → state_t → Bool
  | .unrestricted, .strong => true
  | .unrestricted, .weak_achieved => true
  | .unrestricted, .restricted => true
  | .weak_achieved, .strong => true
  | .weak_achieved, .weak_final => true
  | .restricted, .weak_final => true
  | _, _ => false

/-- The number of table edges already behind a state; every edge raises it. -/
def state_t.progress : state_t → Nat
  | .unrestricted => 0
  | .restricted => 1
  | .weak_achieved => 1
  | .weak_final => 2
  | .strong => 2

/-! ### Sequences of ladder transitions and `is_needed` -/

/-- The shape of a ladder that began as `{0, none, none}`: with no QC block recorded
nothing else is recorded either, a candidate lies between the final block and strictly
below the QC block, and the final block is not above the QC block. -/
def ladder_shape (L : block_header_state_core) : Prop :=
  (L.last_qc_block_num = none →
    L.last_final_block_num = 0 ∧ L.final_on_strong_qc_block_num = none) ∧
  (∀ f, L.final_on_strong_qc_block_num = some f →
    ∃ q, L.last_qc_block_num = some q ∧ L.last_final_block_num ≤ f ∧ f < q) ∧
  (∀ q, L.last_qc_block_num = some q → L.last_final_block_num ≤ q)



/-- A sequence of `next` calls on the ladder, each on the result of the one before;
the sequence fails as soon as one call fails. -/
def block_header_state_core.next_all (L : block_header_state_core) :
    List (Nat × Bool) → Except chain_exception block_header_state_core
  | [] => .ok L
  | (n, strong) :: rest =>
    match L.next n strong with
    | .error e => .error e
    | .ok L' => block_header_state_core.next_all L' rest

/-- The class `valid_quorum_certificate` of `hotstuff.hpp`: the two optional vote bitsets
and the aggregated signature. -/
structure valid_quorum_certificate where
  _strong_votes : Option (List Bool) := none
  _weak_votes : Option (List Bool) := none
  _sig : Nat := 0
  deriving DecidableEq, Repr

/-- The member `valid_quorum_certificate::is_weak`. -/
def valid_quorum_certificate.is_weak (self : valid_quorum_certificate) : Bool :=
  self._weak_votes.isSome

/-- The member `valid_quorum_certificate::is_strong`. -/
def valid_quorum_certificate.is_strong (self : valid_quorum_certificate) : Bool :=
  !self._weak_votes.isSome

/-- The struct `quorum_certificate` of `hotstuff.hpp`. -/
structure quorum_certificate where
  block_num : Nat
  qc : valid_quorum_certificate
  deriving DecidableEq, Repr

/-- The member `block_header_state::is_needed` of `block_header_state.hpp`.  The source
reads the block number of the certificate as `qc.block_height`; the struct declared in
`hotstuff.hpp` names that field `block_num`. -/
def block_header_state.is_needed (self : block_header_state) (qc : quorum_certificate) : Bool :=
  match self.core.last_qc_block_num with
  | none => true
  | some q => decide (qc.block_num > q)

/-! ### View numbers and proposal messages -/

/-- The function `compute_height` of `hotstuff.hpp`.  Both parameters are `uint32_t`, the
shift is made on the 64-bit widening of the first. -/
def compute_height (block_height phase_counter : Nat) : Nat :=
  (((block_height % 2 ^ 32) <<< 32) % 2 ^ 64) ||| (phase_counter % 2 ^ 32)

/-- The struct `view_number` of `hotstuff.hpp`; `bheight` is a `uint32_t` and `pcounter`
a `uint8_t`. -/
structure view_number where
  bheight : Nat := 0
  pcounter : Nat := 0
  deriving DecidableEq, Repr

/-- The two-argument constructor of `view_number`, which stores its arguments at the
widths of the fields. -/
def view_number.create (block_height phase_counter : Nat) : view_number :=
  { bheight := block_height % 2 ^ 32, pcounter := phase_counter % 2 ^ 8 }

/-- The values a `view_number` can hold. -/
def view_number.in_range (v : view_number) : Prop :=
  v.bheight < 2 ^ 32 ∧ v.pcounter < 2 ^ 8

/-- The defaulted `operator<=>` of `view_number`: the members are compared in the order
of their declaration, `bheight` first and `pcounter` second. -/
def view_number.cmp (a b : view_number) : Ordering :=
  match compare a.bheight b.bheight with
  | .lt => .lt
  | .gt => .gt
  | .eq => compare a.pcounter b.pcounter

/-- The `operator<` that the defaulted `operator<=>` provides. -/
def view_number.lt (a b : view_number) : Bool :=
  decide (a.cmp b = .lt)

/-- The `operator>` that the defaulted `operator<=>` provides. -/
def view_number.gt (a b : view_number) : Bool :=
  decide (a.cmp b = .gt)

/-- The `operator==` declared along with the defaulted `operator<=>`: member by member. -/
def view_number.eq (a b : view_number) : Bool :=
  a.bheight == b.bheight && a.pcounter == b.pcounter

/-- The member `view_number::get_key`. -/
def view_number.get_key (v : view_number) : Nat :=
  compute_height v.bheight v.pcounter

/-- The function `get_digest_to_sign` of `hotstuff.hpp`.  `hash` is `digest_type::hash`
on the packed bytes of its argument, which lives outside this code; a pair is packed
as its first component followed by its second, ids and digests are byte strings and
`phase_counter` is one byte. -/
def get_digest_to_sign (hash : List Nat → List Nat) (block_id : List Nat)
    (phase_counter : Nat) (final_on_qc : List Nat) : List Nat :=
  let h1 := hash (block_id ++ [phase_counter])
  let h2 := hash (h1 ++ final_on_qc)
  h2

/-- The struct `quorum_certificate_message` of `hotstuff.hpp`. -/
structure quorum_certificate_message where
  proposal_id : List Nat := []
  strong_votes : List Nat := []
  weak_votes : List Nat := []
  active_agg_sig : Nat := 0
  deriving DecidableEq, Repr

/-- The struct `hs_proposal_message` of `hotstuff.hpp`; `digest` is its mutable cache. -/
structure hs_proposal_message where
  proposal_id : List Nat := []
  block_id : List Nat := []
  parent_id : List Nat := []
  final_on_qc : List Nat := []
  justify : quorum_certificate_message := {}
  phase_counter : Nat := 0
  digest : Option (List Nat) := none
  deriving DecidableEq, Repr

/-- The member `hs_proposal_message::get_proposal_digest`: the returned digest and the
message with its cache as the call leaves it. -/
def hs_proposal_message.get_proposal_digest (hash : List Nat → List Nat)
    (self : hs_proposal_message) : List Nat × hs_proposal_message :=
  match self.digest with
  | some d => (d, self)
  | none =>
    let d := get_digest_to_sign hash self.block_id self.phase_counter self.final_on_qc
    (d, { self with digest := some d })

/-- The member `hs_proposal_message::block_num`.  `num_from_id` is
`block_header::num_from_id`, which lives outside this code; its result is a `uint32_t`. -/
def hs_proposal_message.block_num (num_from_id : List Nat → Nat)
    (self : hs_proposal_message) : Nat :=
  num_from_id self.block_id % 2 ^ 32

/-- The member `hs_proposal_message::get_key`. -/
def hs_proposal_message.get_key (num_from_id : List Nat → Nat)
    (self : hs_proposal_message) : Nat :=
  compute_height (num_from_id self.block_id % 2 ^ 32) self.phase_counter

/-- The member `hs_proposal_message::get_view_number`. -/
def hs_proposal_message.get_view_number (num_from_id : List Nat → Nat)
    (self : hs_proposal_message) : view_number :=
  view_number.create (num_from_id self.block_id % 2 ^ 32) self.phase_counter

/-! ### Pacemaker state cache -/

/-- Modelled from the spec: the record `finalizer_state`, whose declaration is not among
the sources: a snapshot of the current high QC, the view, and the locked and committed
proposals. -/
structure finalizer_state where
  high_qc : quorum_certificate_message := {}
  v_height : view_number := {}
  b_lock : List Nat := []
  b_exec : List Nat := []
  deriving DecidableEq, Repr

/-- Modelled from the spec: the part of `qc_chain`, whose code is not among the sources,
that `chain_pacemaker::get_state` uses: the monotone `state_version` counter and the
finalizer state.  `state_reads` counts the calls of `qc_chain::get_state`; it is not
data of the program. -/
structure qc_chain where
  _state_version : Nat := 0
  _state : finalizer_state := {}
  state_reads : Nat := 0
  deriving DecidableEq, Repr

/-- Modelled from the spec: the member `qc_chain::get_state_version`, the live counter. -/
def qc_chain.get_state_version (self : qc_chain) : Nat :=
  self._state_version

/-- Modelled from the spec: the member `qc_chain::get_state`, which hands out the
current finalizer state; the call is counted. -/
def qc_chain.get_state (self : qc_chain) : finalizer_state × qc_chain :=
  (self._state, { self with state_reads := self.state_reads + 1 })

/-- The members of `chain_pacemaker` that `get_state` touches. -/
structure chain_pacemaker where
  _qc_chain : qc_chain := {}
  _state_cache : finalizer_state := {}
  _state_cache_version : Nat := 0
  deriving DecidableEq, Repr

/-- The member `chain_pacemaker::get_state` of `chain_pacemaker.cpp`, run by one thread:
the QC chain does not change during the call, the locks are always free and the
profiler, which only keeps timing statistics, is left out.  The result is the value
written to `fs` and the pacemaker after the call. -/
def chain_pacemaker.get_state (self : chain_pacemaker) : finalizer_state × chain_pacemaker :=
  -- lock-free state version check
  let current_state_version := self._qc_chain.get_state_version
  let self : chain_pacemaker :=
    if self._state_cache_version ≠ current_state_version then
      let current_state : finalizer_state := {}
      -- get potentially fresher version
      let current_state_version := self._qc_chain.get_state_version
      let read : finalizer_state × qc_chain :=
        if self._state_cache_version ≠ current_state_version then
          self._qc_chain.get_state
        else (current_state, self._qc_chain)
      if self._state_cache_version ≠ current_state_version then
        { _qc_chain := read.2
          _state_cache := read.1
          _state_cache_version := current_state_version }
      else { self with _qc_chain := read.2 }
    else self
  (self._state_cache, self)

/-! ### Tallies of the vote accumulator -/

/-- The tallies of an accumulator: the two sums and the two bitsets. -/
structure vote_tally where
  strong_sum : Nat
  weak_sum : Nat
  strong_bits : List Bool
  weak_bits : List Bool
  deriving DecidableEq, Repr

/-- The tallies held by an accumulator. -/
def pending_quorum_certificate.tally (p : pending_quorum_certificate) : vote_tally :=
  { strong_sum := p._strong_sum
    weak_sum := p._weak_sum
    strong_bits := p._strong_votes._bitset
    weak_bits := p._weak_votes._bitset }

/-- What one `add_vote` call does to the tallies: a vote whose signature does not verify
or whose bit is set changes nothing, any other vote sets its bit and adds its weight to
the sum of its flavor. -/
def vote_tally.add (bls : bls_primitives) (t : vote_tally) (c : vote_call) : vote_tally :=
  if !(bls.verify c.pubkey c.proposal_digest c.sig) then t
  else if c.strong then
    if t.strong_bits.getD c.index false then t
    else { t with strong_bits := t.strong_bits.set c.index true
                  strong_sum := t.strong_sum + c.weight }
  else
    if t.weak_bits.getD c.index false then t
    else { t with weak_bits := t.weak_bits.set c.index true
                  weak_sum := t.weak_sum + c.weight }

/-- The state the table leads to from `unrestricted` as long as the weak sum stays
within `max_weak_sum_before_weak_final`. -/
def settled_state (quorum strong_sum weak_sum : Nat) : state_t :=
  if strong_sum ≥ quorum then .strong
  else if weak_sum + strong_sum ≥ quorum then .weak_achieved
  else .unrestricted

/-! ### The transition table recomputed until it is stable -/

/-- Modelled from the spec: step 4 of `add_vote` in section 4.1, "Recompute state per the
transition table", with the table read again on the state it has just given, until no
row applies.  The table has no path of more than two edges, so two readings reach
that state. -/
def transition_until_stable (quorum max_weak_sum_before_weak_final strong_sum weak_sum : Nat)
    (st : state_t) : state_t :=
  transition quorum max_weak_sum_before_weak_final strong_sum weak_sum
    (transition quorum max_weak_sum_before_weak_final strong_sum weak_sum st)

/-- The failures of the fork database walk: `fork_db_block_not_found` of the error
taxonomy, and `unfinished` for a walk that has not ended within the number of steps
the embedding allows it. -/
inductive fork_database_exception where
  | fork_db_block_not_found
  | unfinished
  deriving DecidableEq, Repr

/-- Modelled from the spec: a fork node (`block_state.hpp` is not among the sources): a
block state, of which the id, `header.previous` and the block number are kept, plus a
`validated` flag. -/
structure fork_node where
  id : Nat
  previous : Nat
  block_num : Nat
  validated : Bool := false
  deriving DecidableEq, Repr

/-- Modelled from the spec: the fork database (`fork_database.cpp` is not among the
sources): a tree rooted at `root`, whose other nodes are kept in `index`, keyed by
block id; internal edges follow `header.previous`. -/
structure fork_database where
  root : fork_node
  index : List fork_node
  deriving DecidableEq, Repr

/-- Modelled from the spec: the lookup of a node by block id, the root included. -/
def fork_database.node (db : fork_database) (id : Nat) : Option fork_node :=
  if id = db.root.id then some db.root else db.index.find? fun n => n.id == id

/-- Modelled from the spec: the first phase of `fetch_branch_from`, "walking the
higher-numbered side down to equal height": while the node is above `height` it is put
on the branch and the walk moves on to the node its `header.previous` names.  The
result is the branch, in descending block-number order, and the node the walk ends
on.  At most `fuel` nodes are visited. -/
def fork_database.walk_down (db : fork_database) :
    Nat → fork_node → Nat → Except fork_database_exception (List fork_node × fork_node)
  | 0, _, _ => .error .unfinished
  | fuel + 1, n, height =>
    if n.block_num > height then
      match db.node n.previous with
      | none => .error .fork_db_block_not_found
      | some p =>
        match fork_database.walk_down db fuel p height with
        | .error e => .error e
        | .ok (l, e) => .ok (n :: l, e)
    else .ok ([], n)

/-- Modelled from the spec: the second phase of `fetch_branch_from`, "then both sides in
lockstep until ids match": while the ids of the two nodes differ both are put on their
branches and both walks move on to the previous node.  The node on which the ids match,
the common ancestor, is on neither branch.  At most `fuel` pairs are visited. -/
def fork_database.lockstep (db : fork_database) :
    Nat → fork_node → fork_node →
      Except fork_database_exception (List fork_node × List fork_node)
  | 0, _, _ => .error .unfinished
  | fuel + 1, a, b =>
    if a.id = b.id then .ok ([], [])
    else
      match db.node a.previous, db.node b.previous with
      | some pa, some pb =>
        match fork_database.lockstep db fuel pa pb with
        | .error e => .error e
        | .ok (la, lb) => .ok (a :: la, b :: lb)
      | _, _ => .error .fork_db_block_not_found

/-- Modelled from the spec: the operation `fetch_branch_from(a, b)` of section 4.3, of
which the sources hold the declaration only (`fork_database.hpp`): "return two ordered
sequences ending at a common ancestor (exclusive).  Ancestor is found by walking the
higher-numbered side down to equal height, then both sides in lockstep until ids
match."  The step bounds given to the walks are the block numbers of the nodes they
start from, plus one. -/
def fork_database.fetch_branch_from (db : fork_database) (first second : Nat) :
    Except fork_database_exception (List fork_node × List fork_node) :=
  match db.node first, db.node second with
  | some a, some b =>
    match db.walk_down (a.block_num + 1) a b.block_num with
    | .error e => .error e
    | .ok (ra, a') =>
      match db.walk_down (b.block_num + 1) b a'.block_num with
      | .error e => .error e
      | .ok (rb, b') =>
        match db.lockstep (a'.block_num + 1) a' b' with
        | .error e => .error e
        | .ok (la, lb) => .ok (ra ++ la, rb ++ lb)
  | _, _ => .error .fork_db_block_not_found

/-- A node of the tree: the root or a node of the index. -/
def fork_database.mem (db : fork_database) (n : fork_node) : Prop :=
  n = db.root ∨ n ∈ db.index

/-- A fork tree: every node of the index is the one found under its id, and its
`header.previous` names a node of the tree whose block number is one less. -/
def fork_database.well_formed (db : fork_database) : Prop :=
  (∀ n ∈ db.index, db.node n.id = some n) ∧
  (∀ n ∈ db.index, (db.node n.previous).map (fun p => p.block_num + 1) = some n.block_num)

/-- The list `l` is the path of the tree that starts at `n`, follows `header.previous`
one block number at a time, and stops before `c`. -/
def fork_database.is_branch (db : fork_database) : List fork_node → fork_node → fork_node → Prop
  | [], n, c => n = c
  | x :: l, n, c =>
    x = n ∧ ∃ p, db.node n.previous = some p ∧ n.block_num = p.block_num + 1 ∧
      fork_database.is_branch db l p c

/-- The node `c` is `n` or an ancestor of `n`. -/
def fork_database.is_ancestor (db : fork_database) (c n : fork_node) : Prop :=
  ∃ l, db.is_branch l n c

/-- Two consecutive entries of a branch: the first names the second as its previous
block, and the second has the lower block number. -/
def branch_link (x y : fork_node) : Prop :=
  x.previous = y.id ∧ y.block_num < x.block_num

/-! ## Properties of the finality ladder -/

/-- With the same QC block number as the one recorded, `next` hands the ladder back. -/
lemma core_next_same (L : block_header_state_core) (n : Nat) (strong : Bool)
    (h : L.last_qc_block_num = some n) : L.next n strong = .ok L := by
  simp [block_header_state_core.next, value_eq_optional, h]

/-- The result of `next` for a QC block number above the recorded one (or with none
recorded), written out field by field. -/
lemma core_next_advance (L : block_header_state_core) (n : Nat) (strong : Bool)
    (hn : ∀ q, L.last_qc_block_num = some q → q < n) :
    L.next n strong = .ok
      { last_final_block_num :=
          if strong then
            (match L.final_on_strong_qc_block_num with
             | some f => f
             | none => L.last_final_block_num)
          else L.last_final_block_num
        final_on_strong_qc_block_num :=
          if strong then
            (match L.last_qc_block_num with
             | some q => some q
             | none => L.final_on_strong_qc_block_num)
          else none
        last_qc_block_num := some n
        finalizer_policy_generation := L.finalizer_policy_generation } := by
  obtain ⟨lf, fo, lq, g⟩ := L
  cases lq with
  | none =>
    cases fo <;> cases strong <;>
      simp [block_header_state_core.next, value_eq_optional, value_gt_optional]
  | some q =>
    have hq : q < n := hn q rfl
    have hne : ¬ n = q := by omega
    cases fo <;> cases strong <;>
      simp [block_header_state_core.next, value_eq_optional, value_gt_optional, hne, hq]

/-- When `next` fails, the recorded QC block number is above the new one. -/
lemma core_next_error (L : block_header_state_core) (n : Nat) (strong : Bool)
    (e : chain_exception) (h : L.next n strong = .error e) :
    ∃ q, L.last_qc_block_num = some q ∧ n < q := by
  cases hq : L.last_qc_block_num with
  | none =>
    rw [core_next_advance L n strong (by simp [hq])] at h
    cases h
  | some q =>
    refine ⟨q, rfl, ?_⟩
    by_contra hlt
    rcases Nat.eq_or_lt_of_le (Nat.le_of_not_lt hlt) with heq | hgt
    · rw [core_next_same L n strong (by rw [hq, heq])] at h
      cases h
    · rw [core_next_advance L n strong (by intro q' hq'; rw [hq] at hq'; cases hq'; exact hgt)] at h
      cases h

/-- When the recorded QC block number is above the new one, `next` fails. -/
lemma core_next_backwards (L : block_header_state_core) (n q : Nat) (strong : Bool)
    (hq : L.last_qc_block_num = some q) (hlt : n < q) :
    L.next n strong = .error .block_validate_exception := by
  have hne : ¬ n = q := by omega
  have hgt : ¬ q < n := by omega
  simp [block_header_state_core.next, value_eq_optional, value_gt_optional, hq, hne, hgt]

/-- C1: for every finality ladder `L`, a state that meets the ordering of the data model
(`last_final_block_num ≤ final_on_strong_qc_block_num ≤ last_qc_block_num`, when
present), and every input `(n, strong)` on which `next` succeeds with result `L'`,
`L'.last_final_block_num ≥ L.last_final_block_num`. -/
theorem core_next_last_final_monotone (L L' : block_header_state_core) (n : Nat)
    (strong : Bool) (hord : ordering_invariant L)
    (h : L.next n strong = .ok L') :
    L'.last_final_block_num ≥ L.last_final_block_num := by
  by_cases hsame : L.last_qc_block_num = some n
  · rw [core_next_same L n strong hsame] at h
    cases h
    exact Nat.le_refl _
  · have hn : ∀ q, L.last_qc_block_num = some q → q < n := by
      intro q hq
      by_contra hlt
      rcases Nat.eq_or_lt_of_le (Nat.le_of_not_lt hlt) with heq | hgt
      · exact hsame (by rw [hq, heq])
      · rw [core_next_backwards L n q strong hq hgt] at h
        cases h
    rw [core_next_advance L n strong hn] at h
    cases h
    cases strong
    · simp
    · cases hf : L.final_on_strong_qc_block_num with
      | none => simp
      | some f => simpa using hord.1 f hf

/-- Witness for C1: the ladder `{5, 8, 9}` meets the ordering, and `(10, strong)` takes
it to `{8, 9, 10}`. -/
theorem core_next_last_final_monotone_witness :
    ordering_invariant (block_header_state_core.mk 5 (some 8) (some 9) 0) ∧
    (block_header_state_core.mk 5 (some 8) (some 9) 0).next 10 true
      = .ok (block_header_state_core.mk 8 (some 9) (some 10) 0) ∧
    (block_header_state_core.mk 8 (some 9) (some 10) 0).last_final_block_num
      ≥ (block_header_state_core.mk 5 (some 8) (some 9) 0).last_final_block_num :=
  ⟨by simp [ordering_invariant], rfl,
    core_next_last_final_monotone (block_header_state_core.mk 5 (some 8) (some 9) 0)
      (block_header_state_core.mk 8 (some 9) (some 10) 0) 10 true
      (by simp [ordering_invariant]) rfl⟩

/-- C2: for a QC block number `n` above the recorded one (or with none recorded),
`next(n, strong)` succeeds; its `last_final_block_num` is the former
`final_on_strong_qc_block_num` when present and the former `last_final_block_num`
otherwise, its `final_on_strong_qc_block_num` is the former `last_qc_block_num` when
present and is unchanged otherwise, and its `last_qc_block_num` is `n`. -/
theorem core_next_strong (L : block_header_state_core) (n : Nat)
    (hn : ∀ q, L.last_qc_block_num = some q → q < n) :
    ∃ L', L.next n true = .ok L' ∧
      L'.last_final_block_num =
        (match L.final_on_strong_qc_block_num with
         | some f => f
         | none => L.last_final_block_num) ∧
      L'.final_on_strong_qc_block_num =
        (match L.last_qc_block_num with
         | some q => some q
         | none => L.final_on_strong_qc_block_num) ∧
      L'.last_qc_block_num = some n ∧
      L'.finalizer_policy_generation = L.finalizer_policy_generation := by
  refine ⟨_, core_next_advance L n true hn, ?_, ?_, rfl, rfl⟩ <;> simp

/-- Witness for C2: `{5, 8, 9}` with `(10, strong)`. -/
theorem core_next_strong_witness :
    ∃ L', (block_header_state_core.mk 5 (some 8) (some 9) 0).next 10 true = .ok L' ∧
      L'.last_final_block_num = 8 ∧
      L'.final_on_strong_qc_block_num = some 9 ∧
      L'.last_qc_block_num = some 10 ∧
      L'.finalizer_policy_generation = 0 :=
  core_next_strong (block_header_state_core.mk 5 (some 8) (some 9) 0) 10
    (by intro q hq; cases hq; decide)

/-- C3: for a QC block number `n` above the recorded one (or with none recorded),
`next(n, weak)` succeeds with `final_on_strong_qc_block_num` absent,
`last_final_block_num` as before and `last_qc_block_num` equal to `n`. -/
theorem core_next_weak (L : block_header_state_core) (n : Nat)
    (hn : ∀ q, L.last_qc_block_num = some q → q < n) :
    L.next n false = .ok
      { last_final_block_num := L.last_final_block_num
        final_on_strong_qc_block_num := none
        last_qc_block_num := some n
        finalizer_policy_generation := L.finalizer_policy_generation } := by
  rw [core_next_advance L n false hn]
  simp

/-- Witness for C3, the example of the spec: `{5, 8, 9}` with `(10, weak)` gives
`{5, none, 10}`. -/
theorem core_next_weak_witness :
    (block_header_state_core.mk 5 (some 8) (some 9) 0).next 10 false
      = .ok (block_header_state_core.mk 5 none (some 10) 0) :=
  core_next_weak (block_header_state_core.mk 5 (some 8) (some 9) 0) 10
    (by intro q hq; cases hq; decide)

/-- C4: `next` fails, and then with `block_validate`, if and only if `last_qc_block_num`
is present and the new QC block number is strictly below it, whatever the strong flag;
and `{5, 8, 9}` with `(7, strong)` fails. -/
theorem core_next_fails_iff (L : block_header_state_core) (n : Nat) (strong : Bool) :
    ((∃ e, L.next n strong = .error e) ↔ ∃ q, L.last_qc_block_num = some q ∧ n < q) ∧
    (L.next n strong = .error .block_validate_exception ↔
      ∃ q, L.last_qc_block_num = some q ∧ n < q) ∧
    (block_header_state_core.mk 5 (some 8) (some 9) L.finalizer_policy_generation).next 7 true
      = .error .block_validate_exception := by
  refine ⟨⟨?_, ?_⟩, ⟨?_, ?_⟩, ?_⟩
  · rintro ⟨e, he⟩
    exact core_next_error L n strong e he
  · rintro ⟨q, hq, hlt⟩
    exact ⟨_, core_next_backwards L n q strong hq hlt⟩
  · intro he
    exact core_next_error L n strong _ he
  · rintro ⟨q, hq, hlt⟩
    exact core_next_backwards L n q strong hq hlt
  · exact core_next_backwards _ 7 9 true rfl (by decide)

/-- C5: when `last_qc_block_num` is present and equal to `n`, `next(n, strong)` returns
the ladder unchanged in every field, for both values of the flag. -/
theorem core_next_idempotent (L : block_header_state_core) (n : Nat) (strong : Bool)
    (h : L.last_qc_block_num = some n) : L.next n strong = .ok L :=
  core_next_same L n strong h

/-- Witness for C5, the example of the spec: `{5, 8, 9}` with `(9, strong)` is unchanged. -/
theorem core_next_idempotent_witness :
    (block_header_state_core.mk 5 (some 8) (some 9) 0).next 9 true
      = .ok (block_header_state_core.mk 5 (some 8) (some 9) 0) :=
  core_next_idempotent (block_header_state_core.mk 5 (some 8) (some 9) 0) 9 true rfl

/-- C6: when `next` succeeds with result `L'`, `L'.last_qc_block_num` is present and
equals `n`, and it is not below `L.last_qc_block_num` when that is present. -/
theorem core_next_last_qc (L L' : block_header_state_core) (n : Nat) (strong : Bool)
    (h : L.next n strong = .ok L') :
    L'.last_qc_block_num = some n ∧ ∀ q, L.last_qc_block_num = some q → q ≤ n := by
  have hle : ∀ q, L.last_qc_block_num = some q → q ≤ n := by
    intro q hq
    by_contra hlt
    rw [core_next_backwards L n q strong hq (Nat.lt_of_not_le hlt)] at h
    cases h
  refine ⟨?_, hle⟩
  by_cases hsame : L.last_qc_block_num = some n
  · rw [core_next_same L n strong hsame] at h
    cases h
    exact hsame
  · have hn : ∀ q, L.last_qc_block_num = some q → q < n := by
      intro q hq
      rcases Nat.eq_or_lt_of_le (hle q hq) with heq | hlt
      · exact absurd (by rw [hq, heq]) hsame
      · exact hlt
    rw [core_next_advance L n strong hn] at h
    cases h
    rfl

/-- Witness for C6: `{5, 8, 9}` with `(10, weak)`. -/
theorem core_next_last_qc_witness :
    (block_header_state_core.mk 5 none (some 10) 0).last_qc_block_num = some 10 ∧
      ∀ q, (block_header_state_core.mk 5 (some 8) (some 9) 0).last_qc_block_num = some q →
        q ≤ 10 :=
  core_next_last_qc (block_header_state_core.mk 5 (some 8) (some 9) 0)
    (block_header_state_core.mk 5 none (some 10) 0) 10 false rfl

/-- C7, as stated, fails.  The ladder `{10, none, 5}` satisfies the ordering (no
candidate is recorded), `(6, strong)` is accepted and gives `{10, 5, 6}`, where the
final block 10 is above the candidate 5.  The ladder `{0, 5, none}` satisfies it too,
`(3, strong)` is accepted and gives `{5, 5, 3}`, where the candidate 5 is above the QC
block 3. -/
theorem core_next_breaks_ordering :
    (ordering_invariant (block_header_state_core.mk 10 none (some 5) 0) ∧
      (block_header_state_core.mk 10 none (some 5) 0).next 6 true
        = .ok (block_header_state_core.mk 10 (some 5) (some 6) 0) ∧
      ¬ ordering_invariant (block_header_state_core.mk 10 (some 5) (some 6) 0)) ∧
    (ordering_invariant (block_header_state_core.mk 0 (some 5) none 0) ∧
      (block_header_state_core.mk 0 (some 5) none 0).next 3 true
        = .ok (block_header_state_core.mk 5 (some 5) (some 3) 0) ∧
      ¬ ordering_invariant (block_header_state_core.mk 5 (some 5) (some 3) 0)) := by
  refine ⟨⟨?_, rfl, ?_⟩, ⟨?_, rfl, ?_⟩⟩
  · simp [ordering_invariant]
  · simp [ordering_invariant]
  · simp [ordering_invariant]
  · simp [ordering_invariant]

/-- C7, amended: for every ladder `L` that satisfies the ordering invariant and in
which, in addition, `last_qc_block_num` is present whenever
`final_on_strong_qc_block_num` is and `last_final_block_num ≤ last_qc_block_num`
whenever `last_qc_block_num` is present, and every input `(n, strong)` on which `next`
succeeds, the resulting state satisfies the ordering invariant. -/
theorem core_next_preserves_ordering (L L' : block_header_state_core) (n : Nat)
    (strong : Bool) (hord : ordering_invariant L) (hanch : qc_anchored L)
    (h : L.next n strong = .ok L') : ordering_invariant L' := by
  by_cases hsame : L.last_qc_block_num = some n
  · rw [core_next_same L n strong hsame] at h
    cases h
    exact hord
  · have hn : ∀ q, L.last_qc_block_num = some q → q < n := by
      intro q hq
      by_contra hlt
      rcases Nat.eq_or_lt_of_le (Nat.le_of_not_lt hlt) with heq | hgt
      · exact hsame (by rw [hq, heq])
      · rw [core_next_backwards L n q strong hq hgt] at h
        cases h
    rw [core_next_advance L n strong hn] at h
    cases h
    obtain ⟨lf, fo, lq, g⟩ := L
    obtain ⟨h1, h2⟩ := hord
    obtain ⟨h3, h4⟩ := hanch
    cases strong
    · simp [ordering_invariant]
    · cases lq with
      | none =>
        cases fo with
        | none => simp [ordering_invariant]
        | some f =>
          obtain ⟨q, hq⟩ := h3 f rfl
          cases hq
      | some q =>
        have hqn : q < n := hn q rfl
        have hlq : lf ≤ q := h4 q rfl
        cases fo with
        | none =>
          simp only [ordering_invariant]
          constructor
          · intro f hf
            simp at hf
            subst hf
            simpa using hlq
          · intro f q' hf hq'
            simp at hf hq'
            omega
        | some f =>
          have hfq : f ≤ q := h2 f q rfl rfl
          simp only [ordering_invariant]
          constructor
          · intro f' hf
            simp at hf
            subst hf
            simpa using hfq
          · intro f' q' hf hq'
            simp at hf hq'
            omega

/-- Witness for C7 amended: `{5, 8, 9}` with `(10, strong)` gives `{8, 9, 10}`. -/
theorem core_next_preserves_ordering_witness :
    ordering_invariant (block_header_state_core.mk 8 (some 9) (some 10) 0) :=
  core_next_preserves_ordering (block_header_state_core.mk 5 (some 8) (some 9) 0)
    (block_header_state_core.mk 8 (some 9) (some 10) 0) 10 true
    (by simp [ordering_invariant]) (by simp [qc_anchored]) rfl

/-- C8: from the initial ladder `{0, none, none}` and block numbers `a < b < c`, the
inputs `(a, strong)`, `(b, strong)`, `(c, strong)` give `{0, none, a}`, then
`{0, a, b}`, then `{a, b, c}`. -/
theorem core_next_three_strong (a b c g : Nat) (hab : a < b) (hbc : b < c) :
    (block_header_state_core.mk 0 none none g).next a true
      = .ok (block_header_state_core.mk 0 none (some a) g) ∧
    (block_header_state_core.mk 0 none (some a) g).next b true
      = .ok (block_header_state_core.mk 0 (some a) (some b) g) ∧
    (block_header_state_core.mk 0 (some a) (some b) g).next c true
      = .ok (block_header_state_core.mk a (some b) (some c) g) := by
  refine ⟨?_, ?_, ?_⟩
  · rw [core_next_advance _ a true (by simp)]
    simp
  · rw [core_next_advance _ b true (by intro q hq; cases hq; exact hab)]
    simp
  · rw [core_next_advance _ c true (by intro q hq; cases hq; exact hbc)]
    simp

/-- Witness for C8, the scenario of the spec: `a = 10`, `b = 11`, `c = 12`. -/
theorem core_next_three_strong_witness :
    (block_header_state_core.mk 0 none none 0).next 10 true
      = .ok (block_header_state_core.mk 0 none (some 10) 0) ∧
    (block_header_state_core.mk 0 none (some 10) 0).next 11 true
      = .ok (block_header_state_core.mk 0 (some 10) (some 11) 0) ∧
    (block_header_state_core.mk 0 (some 10) (some 11) 0).next 12 true
      = .ok (block_header_state_core.mk 10 (some 11) (some 12) 0) :=
  core_next_three_strong 10 11 12 0 (by decide) (by decide)

/-! ## Properties of the block header state -/

/-- C9, as stated, fails: a state whose current finalizer policy has generation 5,
given an input that proposes a policy carrying generation 0, emits an extension whose
policy has generation 1, not 6. -/
theorem block_header_state_next_generation_not_current :
    (block_header_state.next 32
        { core := block_header_state_core.mk 0 none none 0
          finalizer_policy := some (finalizer_policy.mk 5 1 [(7, 1)]) }
        { parent_id := 0, timestamp := 0, producer := 0
          new_protocol_feature_activations := []
          transaction_mroot := 0, action_mroot := 0
          new_proposer_policy := none
          new_finalizer_policy := some (finalizer_policy.mk 0 1 [(8, 1)])
          qc_info := none }).map
        (fun r => r.header.instant_finality.map fun e =>
          e.new_finalizer_policy.map fun p => p.generation)
      = .ok (some (some 1)) ∧
    (1 : Nat) ≠ (finalizer_policy.mk 5 1 [(7, 1)]).generation + 1 := by
  constructor
  · rfl
  · decide

/-- C9, amended: for every block header state `s` and every input whose
`new_finalizer_policy` is present and on which `s.next(input)` succeeds, the
instant-finality extension emitted carries that policy with its generation equal to the
generation the input carried plus 1, wrapping at the width of the generation field;
the state's own finalizer policy plays no part. -/
theorem block_header_state_next_generation (generation_bits : Nat) (s r : block_header_state)
    (input : block_header_state_input) (p : finalizer_policy)
    (hp : input.new_finalizer_policy = some p)
    (h : s.next generation_bits input = .ok r) :
    ∃ e, r.header.instant_finality = some e ∧
      e.new_finalizer_policy
        = some { p with generation := (p.generation + 1) % 2 ^ generation_bits } := by
  unfold block_header_state.next at h
  cases hq : input.qc_info with
  | none =>
    simp only [hq, hp] at h
    cases h
    refine ⟨⟨none, some { p with generation := (p.generation + 1) % 2 ^ generation_bits },
      input.new_proposer_policy⟩, ?_, rfl⟩
    simp [block_header.instant_finality, emplace_extension]
  | some qc =>
    simp only [hq, hp] at h
    cases hc : s.core.next qc.last_qc_block_num qc.is_last_qc_strong with
    | error e =>
      rw [hc] at h
      cases h
    | ok c =>
      rw [hc] at h
      cases h
      refine ⟨⟨some qc, some { p with generation := (p.generation + 1) % 2 ^ generation_bits },
        input.new_proposer_policy⟩, ?_, rfl⟩
      simp [block_header.instant_finality, emplace_extension]

/-- Witness for C9 amended: the proposed policy carries generation 0 and is emitted
with generation 1. -/
theorem block_header_state_next_generation_witness :
    ∃ e, (block_header_state.mk 0
            { timestamp := 3, producer := 4, previous := 2, transaction_mroot := 5
              action_mroot := 6
              header_extensions :=
                [.instant_finality
                  { qc_info := none
                    new_finalizer_policy := some (finalizer_policy.mk 1 1 [(8, 1)])
                    new_proposer_policy := none }] }
            none (block_header_state_core.mk 0 none none 0) [] [] none none [] []
          ).header.instant_finality = some e ∧
      e.new_finalizer_policy
        = some { finalizer_policy.mk 0 1 [(8, 1)] with generation := (0 + 1) % 2 ^ 32 } :=
  block_header_state_next_generation 32
    { core := block_header_state_core.mk 0 none none 0
      finalizer_policy := some (finalizer_policy.mk 5 1 [(7, 1)]) }
    _
    { parent_id := 2, timestamp := 3, producer := 4
      new_protocol_feature_activations := []
      transaction_mroot := 5, action_mroot := 6
      new_proposer_policy := none
      new_finalizer_policy := some (finalizer_policy.mk 0 1 [(8, 1)])
      qc_info := none }
    (finalizer_policy.mk 0 1 [(8, 1)]) rfl rfl

/-! ## Properties of the vote accumulator -/

/-- One reading of the table keeps the state or follows one of its edges. -/
lemma transition_stays_or_edge (quorum max_weak strong_sum weak_sum : Nat) (st : state_t) :
    transition quorum max_weak strong_sum weak_sum st = st ∨
      table_edge st (transition quorum max_weak strong_sum weak_sum st) = true := by
  cases st <;> simp only [transition] <;> (try split_ifs) <;> simp [table_edge]

/-- The states `weak_final` and `strong` have no row that leaves them. -/
lemma transition_terminal (quorum max_weak strong_sum weak_sum : Nat) (st : state_t)
    (h : st = .weak_final ∨ st = .strong) :
    transition quorum max_weak strong_sum weak_sum st = st := by
  rcases h with h | h <;> subst h <;> rfl

/-- Every edge of the table raises the progress of the state. -/
lemma table_edge_progress (a b : state_t) (h : table_edge a b = true) :
    a.progress < b.progress := by
  cases a <;> cases b <;> simp [table_edge, state_t.progress] at h ⊢

/-- The state after one `add_vote` is the former state or the table read on it, and
the returned flag tells which. -/
lemma add_vote_state (bls : bls_primitives) (p : pending_quorum_certificate)
    (strong : Bool) (digest : List Nat) (index pubkey sig weight : Nat) :
    ∃ s w, (p.add_vote bls strong digest index pubkey sig weight).2._state
        = transition p._quorum p._max_weak_sum_before_weak_final s w p._state ∨
      ((p.add_vote bls strong digest index pubkey sig weight).2._state = p._state ∧
        (p.add_vote bls strong digest index pubkey sig weight).1.2 = false) := by
  unfold pending_quorum_certificate.add_vote
  by_cases hv : bls.verify pubkey digest sig = true
  · cases strong
    · by_cases hd : p._weak_votes._bitset[index]?.getD false = true
      · exact ⟨0, 0, Or.inr (by simp [hv, hd])⟩
      · exact ⟨p._strong_sum, p._weak_sum + weight, Or.inl (by simp [hv, hd])⟩
    · by_cases hd : p._strong_votes._bitset[index]?.getD false = true
      · exact ⟨0, 0, Or.inr (by simp [hv, hd])⟩
      · exact ⟨p._strong_sum + weight, p._weak_sum, Or.inl (by simp [hv, hd])⟩
  · exact ⟨0, 0, Or.inr (by simp [hv])⟩

/-- The returned flag is true exactly when the state has changed. -/
lemma add_vote_flag (bls : bls_primitives) (p : pending_quorum_certificate)
    (strong : Bool) (digest : List Nat) (index pubkey sig weight : Nat) :
    (p.add_vote bls strong digest index pubkey sig weight).1.2 = true ↔
      (p.add_vote bls strong digest index pubkey sig weight).2._state ≠ p._state := by
  unfold pending_quorum_certificate.add_vote
  by_cases hv : bls.verify pubkey digest sig = true
  · cases strong
    · by_cases hd : p._weak_votes._bitset[index]?.getD false = true
      · simp [hv, hd]
      · simp [hv, hd]
    · by_cases hd : p._strong_votes._bitset[index]?.getD false = true
      · simp [hv, hd]
      · simp [hv, hd]
  · simp [hv]

/-- One `add_vote` keeps the state or follows one edge of the table. -/
lemma add_vote_stays_or_edge (bls : bls_primitives) (p : pending_quorum_certificate)
    (strong : Bool) (digest : List Nat) (index pubkey sig weight : Nat) :
    (p.add_vote bls strong digest index pubkey sig weight).2._state = p._state ∨
      table_edge p._state (p.add_vote bls strong digest index pubkey sig weight).2._state
        = true := by
  obtain ⟨s, w, h | h⟩ := add_vote_state bls p strong digest index pubkey sig weight
  · rw [h]
    exact transition_stays_or_edge _ _ _ _ _
  · exact Or.inl h.1

/-- One `add_vote` leaves a terminal state as it is. -/
lemma add_vote_terminal (bls : bls_primitives) (p : pending_quorum_certificate)
    (strong : Bool) (digest : List Nat) (index pubkey sig weight : Nat)
    (ht : p._state = .weak_final ∨ p._state = .strong) :
    (p.add_vote bls strong digest index pubkey sig weight).2._state = p._state := by
  obtain ⟨s, w, h | h⟩ := add_vote_state bls p strong digest index pubkey sig weight
  · rw [h]
    exact transition_terminal _ _ _ _ _ ht
  · exact h.1

/-- A sequence of `add_vote` calls moves the state along a path of the table. -/
lemma add_votes_path (bls : bls_primitives) (calls : List vote_call) :
    ∀ p : pending_quorum_certificate,
      Relation.ReflTransGen (fun a b => table_edge a b = true) p._state
        (p.add_votes bls calls)._state := by
  induction calls with
  | nil => intro p; exact Relation.ReflTransGen.refl
  | cons c cs ih =>
    intro p
    simp only [pending_quorum_certificate.add_votes]
    refine Relation.ReflTransGen.trans ?_ (ih _)
    rcases add_vote_stays_or_edge bls p c.strong c.proposal_digest c.index c.pubkey c.sig
      c.weight with h | h
    · rw [h]
    · exact Relation.ReflTransGen.single h

/-- Along a path of the table the progress of the state does not fall. -/
lemma path_progress (a b : state_t)
    (h : Relation.ReflTransGen (fun a b => table_edge a b = true) a b) :
    a.progress ≤ b.progress := by
  induction h with
  | refl => exact Nat.le_refl _
  | tail _ hbc ih => exact Nat.le_trans ih (Nat.le_of_lt (table_edge_progress _ _ hbc))

/-- C10: each `add_vote` call leaves the state unchanged or moves it along one edge of
the transition table, leaves `weak_final` and `strong` as they are, and returns a
`state_changed` flag that is true exactly when the state after the call differs from
the state before it; any sequence of calls moves the state along a path of the table,
never onto a state from which an edge leads back to the starting state, and never
out of `weak_final` or `strong`. -/
theorem add_vote_monotone (bls : bls_primitives) (p : pending_quorum_certificate)
    (calls : List vote_call) (c : vote_call) :
    ((p.add_vote bls c.strong c.proposal_digest c.index c.pubkey c.sig c.weight).2._state
        = p._state ∨
      table_edge p._state
        (p.add_vote bls c.strong c.proposal_digest c.index c.pubkey c.sig c.weight).2._state
        = true) ∧
    (p._state = .weak_final ∨ p._state = .strong →
      (p.add_vote bls c.strong c.proposal_digest c.index c.pubkey c.sig c.weight).2._state
        = p._state) ∧
    ((p.add_vote bls c.strong c.proposal_digest c.index c.pubkey c.sig c.weight).1.2 = true ↔
      (p.add_vote bls c.strong c.proposal_digest c.index c.pubkey c.sig c.weight).2._state
        ≠ p._state) ∧
    Relation.ReflTransGen (fun a b => table_edge a b = true) p._state
      (p.add_votes bls calls)._state ∧
    ¬ Relation.TransGen (fun a b => table_edge a b = true) (p.add_votes bls calls)._state
      p._state ∧
    (p._state = .weak_final ∨ p._state = .strong → (p.add_votes bls calls)._state = p._state) := by
  have hpath := add_votes_path bls calls p
  refine ⟨add_vote_stays_or_edge bls p _ _ _ _ _ _, add_vote_terminal bls p _ _ _ _ _ _,
    add_vote_flag bls p _ _ _ _ _ _, hpath, ?_, ?_⟩
  · intro hback
    have h1 := path_progress _ _ hpath
    obtain ⟨m, hm, hedge⟩ := Relation.TransGen.tail'_iff.mp hback
    have h2 := path_progress _ _ hm
    have h3 := table_edge_progress _ _ hedge
    omega
  · intro ht
    rcases Relation.ReflTransGen.cases_head hpath with h | ⟨m, hedge, _⟩
    · exact h.symm
    · rcases ht with ht | ht <;> rw [ht] at hedge <;> simp [table_edge] at hedge

/-! ## Reachable ladders, `is_needed` and the ladder inside the block header state -/

/-- Every successful `next` either hands the ladder back or is the advance of
`core_next_advance`, the new QC block number being above the recorded one. -/
lemma core_next_ok_cases (L L' : block_header_state_core) (n : Nat) (strong : Bool)
    (h : L.next n strong = .ok L') :
    (L.last_qc_block_num = some n ∧ L' = L) ∨
      ((∀ q, L.last_qc_block_num = some q → q < n) ∧
        L.next n strong = .ok L' ∧ L.last_qc_block_num ≠ some n) := by
  by_cases hsame : L.last_qc_block_num = some n
  · rw [core_next_same L n strong hsame] at h
    cases h
    exact Or.inl ⟨hsame, rfl⟩
  · refine Or.inr ⟨?_, h, hsame⟩
    intro q hq
    by_contra hlt
    rcases Nat.eq_or_lt_of_le (Nat.le_of_not_lt hlt) with heq | hgt
    · exact hsame (by rw [hq, heq])
    · rw [core_next_backwards L n q strong hq hgt] at h
      cases h

/-- One successful `next` keeps the shape of the ladder and does not lower the final
block. -/
lemma core_next_shape (L L' : block_header_state_core) (n : Nat) (strong : Bool)
    (hs : ladder_shape L) (h : L.next n strong = .ok L') :
    ladder_shape L' ∧ L.last_final_block_num ≤ L'.last_final_block_num := by
  rcases core_next_ok_cases L L' n strong h with ⟨_, rfl⟩ | ⟨hn, _, _⟩
  · exact ⟨hs, Nat.le_refl _⟩
  · rw [core_next_advance L n strong hn] at h
    cases h
    obtain ⟨lf, fo, lq, g⟩ := L
    obtain ⟨h0, h1, h2⟩ := hs
    cases strong
    · cases lq with
      | none =>
        have := (h0 rfl).1
        simp only at this
        simp [ladder_shape, this]
      | some q =>
        have hq := hn q rfl
        have hl := h2 q rfl
        simp only at hl
        simp [ladder_shape]
        omega
    · cases lq with
      | none =>
        obtain ⟨hz, hf⟩ := h0 rfl
        simp only at hz hf
        subst hz hf
        simp [ladder_shape]
      | some q =>
        have hq := hn q rfl
        have hl := h2 q rfl
        simp only at hl
        cases fo with
        | none =>
          simp [ladder_shape]
          omega
        | some f =>
          obtain ⟨q', hq', hlf, hfq⟩ := h1 f rfl
          simp only at hq' hlf
          cases hq'
          simp [ladder_shape]
          omega

/-- A successful sequence of `next` calls keeps the shape of the ladder and does not
lower the final block. -/
lemma core_next_all_shape (inputs : List (Nat × Bool)) :
    ∀ L L' : block_header_state_core, ladder_shape L → L.next_all inputs = .ok L' →
      ladder_shape L' ∧ L.last_final_block_num ≤ L'.last_final_block_num := by
  induction inputs with
  | nil =>
    intro L L' hs h
    simp only [block_header_state_core.next_all] at h
    cases h
    exact ⟨hs, Nat.le_refl _⟩
  | cons x rest ih =>
    intro L L' hs h
    obtain ⟨n, strong⟩ := x
    simp only [block_header_state_core.next_all] at h
    cases hstep : L.next n strong with
    | error e =>
      rw [hstep] at h
      cases h
    | ok M =>
      rw [hstep] at h
      obtain ⟨hM, hle⟩ := core_next_shape L M n strong hs hstep
      obtain ⟨hL', hle'⟩ := ih M L' hM h
      exact ⟨hL', Nat.le_trans hle hle'⟩

/-- C18: every ladder reached from the default state `{0, none, none}` by a sequence of
successful `next` calls has, when `final_on_strong_qc_block_num` is present,
`last_qc_block_num` present with
`last_final_block_num ≤ final_on_strong_qc_block_num < last_qc_block_num`, and, when
`last_qc_block_num` is present, `last_final_block_num ≤ last_qc_block_num`; and further
successful calls from such a ladder do not lower `last_final_block_num`. -/
theorem ladder_reachable_invariant (g : Nat) (inputs more : List (Nat × Bool))
    (L L' : block_header_state_core)
    (h : (block_header_state_core.mk 0 none none g).next_all inputs = .ok L)
    (h' : L.next_all more = .ok L') :
    (∀ f, L.final_on_strong_qc_block_num = some f →
      ∃ q, L.last_qc_block_num = some q ∧ L.last_final_block_num ≤ f ∧ f < q) ∧
    (∀ q, L.last_qc_block_num = some q → L.last_final_block_num ≤ q) ∧
    L.last_final_block_num ≤ L'.last_final_block_num := by
  have h0 : ladder_shape (block_header_state_core.mk 0 none none g) := by
    simp [ladder_shape]
  obtain ⟨hL, _⟩ := core_next_all_shape inputs _ L h0 h
  obtain ⟨_, hle⟩ := core_next_all_shape more L L' hL h'
  exact ⟨hL.2.1, hL.2.2, hle⟩

/-- Witness for C18: the strong QCs 10, 11, 12 lead to `{10, 11, 12}`, and the weak QC 13
then leads to `{10, none, 13}`. -/
theorem ladder_reachable_invariant_witness :
    (∀ f, (block_header_state_core.mk 10 (some 11) (some 12) 0).final_on_strong_qc_block_num
        = some f →
      ∃ q, (block_header_state_core.mk 10 (some 11) (some 12) 0).last_qc_block_num = some q ∧
        (block_header_state_core.mk 10 (some 11) (some 12) 0).last_final_block_num ≤ f ∧
        f < q) ∧
    (∀ q, (block_header_state_core.mk 10 (some 11) (some 12) 0).last_qc_block_num = some q →
      (block_header_state_core.mk 10 (some 11) (some 12) 0).last_final_block_num ≤ q) ∧
    (block_header_state_core.mk 10 (some 11) (some 12) 0).last_final_block_num
      ≤ (block_header_state_core.mk 10 none (some 13) 0).last_final_block_num :=
  ladder_reachable_invariant 0 [(10, true), (11, true), (12, true)] [(13, false)]
    (block_header_state_core.mk 10 (some 11) (some 12) 0)
    (block_header_state_core.mk 10 none (some 13) 0) rfl rfl

/-- C19: `is_needed(qc)` is true if and only if the ladder call with the block number of
the certificate succeeds and returns a ladder different from the current one, for either
value of the strong flag; it is false exactly when that call returns the ladder
unchanged or fails with `block_validate`. -/
theorem is_needed_iff_core_changes (s : block_header_state) (qc : quorum_certificate)
    (strong : Bool) :
    (s.is_needed qc = true ↔
      ∃ L', s.core.next qc.block_num strong = .ok L' ∧ L' ≠ s.core) ∧
    (s.is_needed qc = false ↔
      (s.core.next qc.block_num strong = .ok s.core ∨
        s.core.next qc.block_num strong = .error .block_validate_exception)) := by
  have key : s.is_needed qc = true ↔
      ∃ L', s.core.next qc.block_num strong = .ok L' ∧ L' ≠ s.core := by
    constructor
    · intro hneed
      have hn : ∀ q, s.core.last_qc_block_num = some q → q < qc.block_num := by
        intro q hq
        simpa [block_header_state.is_needed, hq] using hneed
      refine ⟨_, core_next_advance s.core qc.block_num strong hn, ?_⟩
      intro heq
      have hlq := congrArg block_header_state_core.last_qc_block_num heq
      simp only at hlq
      have := hn qc.block_num hlq.symm
      omega
    · rintro ⟨L', hok, hne⟩
      rcases core_next_ok_cases s.core L' qc.block_num strong hok with ⟨_, rfl⟩ | ⟨hn, _, _⟩
      · exact absurd rfl hne
      · cases hq : s.core.last_qc_block_num with
        | none => simp [block_header_state.is_needed, hq]
        | some q => simpa [block_header_state.is_needed, hq] using hn q hq
  refine ⟨key, ?_⟩
  constructor
  · intro hfalse
    cases hres : s.core.next qc.block_num strong with
    | error e =>
      cases e
      exact Or.inr rfl
    | ok L' =>
      left
      by_cases heq : L' = s.core
      · rw [heq]
      · have := key.mpr ⟨L', hres, heq⟩
        rw [hfalse] at this
        cases this
  · intro hcases
    cases hneed : s.is_needed qc with
    | false => rfl
    | true =>
      obtain ⟨L', hok, hne⟩ := key.mp hneed
      rcases hcases with hsame | herr
      · rw [hsame] at hok
        cases hok
        exact absurd rfl hne
      · rw [herr] at hok
        cases hok

/-- C17: without `qc_info` in the input, `next` succeeds, keeps the ladder and emits an
extension with no `qc_info`; with `qc_info` in the input, `next` fails exactly when the
ladder call on `(last_qc_block_num, is_last_qc_strong)` fails, with the same
`block_validate`, and otherwise takes the result of that call as its ladder and emits
an extension carrying exactly that `qc_info`. -/
theorem block_header_state_next_core (generation_bits : Nat) (s : block_header_state)
    (input : block_header_state_input) :
    (input.qc_info = none →
      ∃ r, s.next generation_bits input = .ok r ∧ r.core = s.core ∧
        ∃ e, r.header.instant_finality = some e ∧ e.qc_info = none) ∧
    (∀ qc, input.qc_info = some qc →
      (∀ c, s.core.next qc.last_qc_block_num qc.is_last_qc_strong = .ok c →
        ∃ r, s.next generation_bits input = .ok r ∧ r.core = c ∧
          ∃ e, r.header.instant_finality = some e ∧ e.qc_info = some qc) ∧
      (s.next generation_bits input = .error .block_validate_exception ↔
        s.core.next qc.last_qc_block_num qc.is_last_qc_strong
          = .error .block_validate_exception) ∧
      ((∃ e, s.next generation_bits input = .error e) ↔
        ∃ e, s.core.next qc.last_qc_block_num qc.is_last_qc_strong = .error e)) := by
  constructor
  · intro hq
    unfold block_header_state.next
    simp only [hq]
    refine ⟨_, rfl, rfl, ?_⟩
    simp [block_header.instant_finality, emplace_extension]
  · intro qc hq
    unfold block_header_state.next
    simp only [hq]
    cases hc : s.core.next qc.last_qc_block_num qc.is_last_qc_strong with
    | error e =>
      cases e
      simp
    | ok c =>
      refine ⟨?_, by simp, by simp⟩
      intro c' hc'
      cases hc'
      refine ⟨_, rfl, rfl, ?_⟩
      simp [block_header.instant_finality, emplace_extension]

/-! ## Thresholds reached by the vote accumulator -/

/-- One reading of the table on sums that have not fallen keeps the link between the
state and the thresholds. -/
lemma transition_thresholds (q m s w s' w' : Nat) (st : state_t) (hs : s ≤ s') (hw : w ≤ w')
    (h1 : st = .strong → q ≤ s) (h2 : st = .weak_final → m < w)
    (h3 : st = .restricted → m < w) :
    (transition q m s' w' st = .strong → q ≤ s') ∧
    (transition q m s' w' st = .weak_final → m < w') ∧
    (transition q m s' w' st = .restricted → m < w') := by
  cases st <;> simp only [transition] <;> (try split_ifs) <;> simp at * <;> omega

/-- The thresholds of an accumulator are not touched by `add_vote`. -/
lemma add_vote_keeps_thresholds (bls : bls_primitives) (p : pending_quorum_certificate)
    (strong : Bool) (digest : List Nat) (index pubkey sig weight : Nat) :
    (p.add_vote bls strong digest index pubkey sig weight).2._quorum = p._quorum ∧
    (p.add_vote bls strong digest index pubkey sig weight).2._max_weak_sum_before_weak_final
      = p._max_weak_sum_before_weak_final := by
  unfold pending_quorum_certificate.add_vote
  by_cases hv : bls.verify pubkey digest sig = true
  · cases strong
    · by_cases hd : p._weak_votes._bitset[index]?.getD false = true <;> simp [hv, hd]
    · by_cases hd : p._strong_votes._bitset[index]?.getD false = true <;> simp [hv, hd]
  · simp [hv]

/-- The link between the state and the thresholds: `strong` has the strong quorum,
`weak_final` and `restricted` have the weak sum above its bound. -/
lemma add_vote_links (bls : bls_primitives) (p : pending_quorum_certificate)
    (strong : Bool) (digest : List Nat) (index pubkey sig weight : Nat)
    (h1 : p._state = .strong → p._quorum ≤ p._strong_sum)
    (h2 : p._state = .weak_final → p._max_weak_sum_before_weak_final < p._weak_sum)
    (h3 : p._state = .restricted → p._max_weak_sum_before_weak_final < p._weak_sum) :
    ((p.add_vote bls strong digest index pubkey sig weight).2._state = .strong →
      p._quorum ≤ (p.add_vote bls strong digest index pubkey sig weight).2._strong_sum) ∧
    ((p.add_vote bls strong digest index pubkey sig weight).2._state = .weak_final →
      p._max_weak_sum_before_weak_final
        < (p.add_vote bls strong digest index pubkey sig weight).2._weak_sum) ∧
    ((p.add_vote bls strong digest index pubkey sig weight).2._state = .restricted →
      p._max_weak_sum_before_weak_final
        < (p.add_vote bls strong digest index pubkey sig weight).2._weak_sum) := by
  unfold pending_quorum_certificate.add_vote
  by_cases hv : bls.verify pubkey digest sig = true
  · cases strong
    · by_cases hd : p._weak_votes._bitset[index]?.getD false = true
      · simpa [hv, hd] using ⟨h1, h2, h3⟩
      · simpa [hv, hd] using
          transition_thresholds p._quorum p._max_weak_sum_before_weak_final p._strong_sum
            p._weak_sum p._strong_sum (p._weak_sum + weight) p._state (Nat.le_refl _)
            (Nat.le_add_right _ _) h1 h2 h3
    · by_cases hd : p._strong_votes._bitset[index]?.getD false = true
      · simpa [hv, hd] using ⟨h1, h2, h3⟩
      · simpa [hv, hd] using
          transition_thresholds p._quorum p._max_weak_sum_before_weak_final p._strong_sum
            p._weak_sum (p._strong_sum + weight) p._weak_sum p._state (Nat.le_add_right _ _)
            (Nat.le_refl _) h1 h2 h3
  · simpa [hv] using ⟨h1, h2, h3⟩

/-- The link between the state and the thresholds survives any sequence of calls. -/
lemma add_votes_links (bls : bls_primitives) (calls : List vote_call) :
    ∀ p : pending_quorum_certificate,
      (p._state = .strong → p._quorum ≤ p._strong_sum) →
      (p._state = .weak_final → p._max_weak_sum_before_weak_final < p._weak_sum) →
      (p._state = .restricted → p._max_weak_sum_before_weak_final < p._weak_sum) →
      ((p.add_votes bls calls)._state = .strong →
        (p.add_votes bls calls)._quorum ≤ (p.add_votes bls calls)._strong_sum) ∧
      ((p.add_votes bls calls)._state = .weak_final →
        (p.add_votes bls calls)._max_weak_sum_before_weak_final
          < (p.add_votes bls calls)._weak_sum) ∧
      ((p.add_votes bls calls)._state = .restricted →
        (p.add_votes bls calls)._max_weak_sum_before_weak_final
          < (p.add_votes bls calls)._weak_sum) := by
  induction calls with
  | nil => intro p h1 h2 h3; exact ⟨h1, h2, h3⟩
  | cons c cs ih =>
    intro p h1 h2 h3
    simp only [pending_quorum_certificate.add_votes]
    obtain ⟨hq, hm⟩ := add_vote_keeps_thresholds bls p c.strong c.proposal_digest c.index
      c.pubkey c.sig c.weight
    obtain ⟨k1, k2, k3⟩ := add_vote_links bls p c.strong c.proposal_digest c.index
      c.pubkey c.sig c.weight h1 h2 h3
    rw [← hq] at k1
    rw [← hm] at k2 k3
    exact ih _ k1 k2 k3

/-- C11: in every accumulator reached from a freshly constructed one by `add_vote` calls,
state `strong` implies `strong_sum ≥ quorum`, state `weak_final` implies
`weak_sum > max_weak_sum_before_weak_final`, state `restricted` implies that
`is_quorum_met()` is false, and `is_quorum_met()` is true exactly in the states
`weak_achieved`, `weak_final` and `strong`. -/
theorem accumulator_thresholds (bls : bls_primitives)
    (num_finalizers quorum max_weak_sum_before_weak_final : Nat) (calls : List vote_call) :
    (((pending_quorum_certificate.create num_finalizers quorum
          max_weak_sum_before_weak_final).add_votes bls calls)._state = .strong →
      ((pending_quorum_certificate.create num_finalizers quorum
          max_weak_sum_before_weak_final).add_votes bls calls)._strong_sum
        ≥ ((pending_quorum_certificate.create num_finalizers quorum
          max_weak_sum_before_weak_final).add_votes bls calls)._quorum) ∧
    (((pending_quorum_certificate.create num_finalizers quorum
          max_weak_sum_before_weak_final).add_votes bls calls)._state = .weak_final →
      ((pending_quorum_certificate.create num_finalizers quorum
          max_weak_sum_before_weak_final).add_votes bls calls)._weak_sum
        > ((pending_quorum_certificate.create num_finalizers quorum
          max_weak_sum_before_weak_final).add_votes bls calls)._max_weak_sum_before_weak_final) ∧
    (((pending_quorum_certificate.create num_finalizers quorum
          max_weak_sum_before_weak_final).add_votes bls calls)._state = .restricted →
      ((pending_quorum_certificate.create num_finalizers quorum
          max_weak_sum_before_weak_final).add_votes bls calls).is_quorum_met = false) ∧
    (((pending_quorum_certificate.create num_finalizers quorum
          max_weak_sum_before_weak_final).add_votes bls calls).is_quorum_met = true ↔
      ((pending_quorum_certificate.create num_finalizers quorum
          max_weak_sum_before_weak_final).add_votes bls calls)._state = .weak_achieved ∨
      ((pending_quorum_certificate.create num_finalizers quorum
          max_weak_sum_before_weak_final).add_votes bls calls)._state = .weak_final ∨
      ((pending_quorum_certificate.create num_finalizers quorum
          max_weak_sum_before_weak_final).add_votes bls calls)._state = .strong) ∧
    ((pending_quorum_certificate.create num_finalizers quorum
          max_weak_sum_before_weak_final).add_votes bls calls)._quorum = quorum ∧
    ((pending_quorum_certificate.create num_finalizers quorum
          max_weak_sum_before_weak_final).add_votes bls calls)._max_weak_sum_before_weak_final
      = max_weak_sum_before_weak_final := by
  have hfresh : (pending_quorum_certificate.create num_finalizers quorum
      max_weak_sum_before_weak_final)._state = .unrestricted := rfl
  obtain ⟨k1, k2, _⟩ := add_votes_links bls calls
    (pending_quorum_certificate.create num_finalizers quorum max_weak_sum_before_weak_final)
    (by rw [hfresh]; intro h; cases h) (by rw [hfresh]; intro h; cases h)
    (by rw [hfresh]; intro h; cases h)
  have hthr : ∀ (cs : List vote_call) (p : pending_quorum_certificate),
      (p.add_votes bls cs)._quorum = p._quorum ∧
      (p.add_votes bls cs)._max_weak_sum_before_weak_final
        = p._max_weak_sum_before_weak_final := by
    intro cs
    induction cs with
    | nil => intro p; exact ⟨rfl, rfl⟩
    | cons c cs ih =>
      intro p
      simp only [pending_quorum_certificate.add_votes]
      obtain ⟨hq, hm⟩ := add_vote_keeps_thresholds bls p c.strong c.proposal_digest c.index
        c.pubkey c.sig c.weight
      obtain ⟨iq, im⟩ := ih (p.add_vote bls c.strong c.proposal_digest c.index c.pubkey c.sig
        c.weight).2
      exact ⟨iq.trans hq, im.trans hm⟩
  refine ⟨k1, k2, ?_, ?_, (hthr calls _).1, (hthr calls _).2⟩
  · intro hr
    simp [pending_quorum_certificate.is_quorum_met, hr]
  · cases hst : ((pending_quorum_certificate.create num_finalizers quorum
      max_weak_sum_before_weak_final).add_votes bls calls)._state <;>
      simp [pending_quorum_certificate.is_quorum_met, hst]

/-! ## View numbers, keys and digests -/

/-- The three-way comparison of two view numbers, written out on the fields. -/
lemma view_number_cmp_cases (a b : view_number) :
    (a.cmp b = .lt ↔ a.bheight < b.bheight ∨ (a.bheight = b.bheight ∧ a.pcounter < b.pcounter)) ∧
    (a.cmp b = .eq ↔ a.bheight = b.bheight ∧ a.pcounter = b.pcounter) ∧
    (a.cmp b = .gt ↔ b.bheight < a.bheight ∨ (a.bheight = b.bheight ∧ b.pcounter < a.pcounter)) := by
  unfold view_number.cmp
  rcases Nat.lt_trichotomy a.bheight b.bheight with h | h | h
  · have hc : compare a.bheight b.bheight = .lt := compare_lt_iff_lt.mpr h
    rw [hc]
    simp
    omega
  · have hc : compare a.bheight b.bheight = .eq := compare_eq_iff_eq.mpr h
    rw [hc]
    simp only [compare_lt_iff_lt, compare_eq_iff_eq, compare_gt_iff_gt]
    omega
  · have hc : compare a.bheight b.bheight = .gt := compare_gt_iff_gt.mpr h
    rw [hc]
    simp
    omega

/-- The key of a view number in range is its block height times `2^32` plus its phase
counter. -/
lemma view_number_key (v : view_number) (hv : v.in_range) :
    v.get_key = v.bheight * 2 ^ 32 + v.pcounter := by
  obtain ⟨hb, hp⟩ := hv
  have hp32 : v.pcounter < 2 ^ 32 := by omega
  have hlt : v.bheight * 2 ^ 32 < 2 ^ 64 := by omega
  unfold view_number.get_key compute_height
  rw [Nat.mod_eq_of_lt hb, Nat.mod_eq_of_lt hp32, Nat.shiftLeft_eq, Nat.mod_eq_of_lt hlt,
    Nat.mul_comm, ← Nat.mul_add_lt_is_or hp32]

/-- C14: `v1 < v2` holds exactly when the block height of `v1` is below that of `v2`, or
the block heights are equal and the phase counter of `v1` is below that of `v2`;
`v1 == v2` holds exactly when both fields are equal; exactly one of `v1 < v2`,
`v1 == v2`, `v1 > v2` holds; `v1 > v2` is `v2 < v1`; and `<` is transitive. -/
theorem view_number_lexicographic (v1 v2 : view_number) :
    (v1.lt v2 = true ↔
      v1.bheight < v2.bheight ∨ (v1.bheight = v2.bheight ∧ v1.pcounter < v2.pcounter)) ∧
    (v1.eq v2 = true ↔ v1.bheight = v2.bheight ∧ v1.pcounter = v2.pcounter) ∧
    (v1.eq v2 = true ↔ v1.cmp v2 = .eq) ∧
    ((v1.lt v2 = true ∧ v1.eq v2 = false ∧ v1.gt v2 = false) ∨
      (v1.lt v2 = false ∧ v1.eq v2 = true ∧ v1.gt v2 = false) ∨
      (v1.lt v2 = false ∧ v1.eq v2 = false ∧ v1.gt v2 = true)) ∧
    (v1.gt v2 = v2.lt v1) ∧
    (∀ v3 : view_number, v1.lt v2 = true → v2.lt v3 = true → v1.lt v3 = true) := by
  obtain ⟨hlt, heq, hgt⟩ := view_number_cmp_cases v1 v2
  have hlt' : v1.lt v2 = true ↔
      v1.bheight < v2.bheight ∨ (v1.bheight = v2.bheight ∧ v1.pcounter < v2.pcounter) := by
    rw [← hlt]
    simp [view_number.lt]
  have heq' : v1.eq v2 = true ↔ v1.bheight = v2.bheight ∧ v1.pcounter = v2.pcounter := by
    simp [view_number.eq]
  have hgt' : v1.gt v2 = true ↔
      v2.bheight < v1.bheight ∨ (v1.bheight = v2.bheight ∧ v2.pcounter < v1.pcounter) := by
    rw [← hgt]
    simp [view_number.gt]
  have hlt21 : v2.lt v1 = true ↔
      v2.bheight < v1.bheight ∨ (v2.bheight = v1.bheight ∧ v2.pcounter < v1.pcounter) := by
    rw [← (view_number_cmp_cases v2 v1).1]
    simp [view_number.lt]
  refine ⟨hlt', heq', heq'.trans heq.symm, ?_, ?_, ?_⟩
  · cases h1 : v1.lt v2 <;> cases h2 : v1.eq v2 <;> cases h3 : v1.gt v2 <;>
      simp only [h1, h2, h3, Bool.false_eq_true, false_iff, true_iff, not_or, not_and,
        not_lt] at hlt' heq' hgt' <;> simp <;> omega
  · cases h3 : v1.gt v2 <;> cases h4 : v2.lt v1 <;>
      simp only [h3, h4, Bool.false_eq_true, false_iff, true_iff, not_or, not_and,
        not_lt] at hgt' hlt21 <;> first | rfl | omega
  · intro v3 h12 h23
    have h12' := hlt'.mp h12
    have h23' : v2.bheight < v3.bheight ∨
        (v2.bheight = v3.bheight ∧ v2.pcounter < v3.pcounter) := by
      rw [← (view_number_cmp_cases v2 v3).1]
      simpa [view_number.lt] using h23
    have h13 : v1.bheight < v3.bheight ∨
        (v1.bheight = v3.bheight ∧ v1.pcounter < v3.pcounter) := by omega
    rw [← (view_number_cmp_cases v1 v3).1] at h13
    simpa [view_number.lt] using h13

/-- C20: for view numbers in the range of their fields, `get_key` is the block height
times `2^32` plus the phase counter and fits 64 bits, equal keys come from equal view
numbers, `v1 < v2` holds exactly when the key of `v1` is below the key of `v2`, and the
key of a proposal message is the key of its view number. -/
theorem view_number_key_order (v1 v2 : view_number) (h1 : v1.in_range) (h2 : v2.in_range) :
    v1.get_key = v1.bheight * 2 ^ 32 + v1.pcounter ∧
    v1.get_key < 2 ^ 64 ∧
    (v1.get_key = v2.get_key → v1 = v2) ∧
    (v1.lt v2 = true ↔ v1.get_key < v2.get_key) ∧
    (∀ (num_from_id : List Nat → Nat) (msg : hs_proposal_message),
      msg.phase_counter < 2 ^ 8 →
      msg.get_key num_from_id = (msg.get_view_number num_from_id).get_key) := by
  have k1 := view_number_key v1 h1
  have k2 := view_number_key v2 h2
  obtain ⟨hb1, hp1⟩ := h1
  obtain ⟨hb2, hp2⟩ := h2
  refine ⟨k1, by omega, ?_, ?_, ?_⟩
  · intro hk
    rw [k1, k2] at hk
    obtain ⟨b1, p1⟩ := v1
    obtain ⟨b2, p2⟩ := v2
    simp only at hk hb1 hp1 hb2 hp2
    have hb : b1 = b2 := by omega
    have hp : p1 = p2 := by omega
    rw [hb, hp]
  · rw [k1, k2]
    simp only [view_number.lt, decide_eq_true_eq]
    rw [(view_number_cmp_cases v1 v2).1]
    omega
  · intro num_from_id msg hpc
    simp only [hs_proposal_message.get_key, hs_proposal_message.get_view_number,
      view_number.get_key, view_number.create, Nat.mod_mod, Nat.mod_eq_of_lt hpc]

/-- Witness for C20: the view numbers `(7, 3)` and `(8, 0)`. -/
theorem view_number_key_order_witness :
    (view_number.mk 7 3).get_key = (view_number.mk 7 3).bheight * 2 ^ 32
        + (view_number.mk 7 3).pcounter ∧
    (view_number.mk 7 3).get_key < 2 ^ 64 ∧
    ((view_number.mk 7 3).get_key = (view_number.mk 8 0).get_key →
      view_number.mk 7 3 = view_number.mk 8 0) ∧
    ((view_number.mk 7 3).lt (view_number.mk 8 0) = true ↔
      (view_number.mk 7 3).get_key < (view_number.mk 8 0).get_key) ∧
    (∀ (num_from_id : List Nat → Nat) (msg : hs_proposal_message),
      msg.phase_counter < 2 ^ 8 →
      msg.get_key num_from_id = (msg.get_view_number num_from_id).get_key) :=
  view_number_key_order (view_number.mk 7 3) (view_number.mk 8 0)
    (by constructor <;> decide) (by constructor <;> decide)

/-- C15: `get_digest_to_sign(block_id, phase_counter, final_on_qc)` is
`H(H(block_id || phase_counter) || final_on_qc)`; and a proposal message whose digest
cache is empty returns from `get_proposal_digest()` the digest of its own `block_id`,
`phase_counter` and `final_on_qc`, fills its cache with it, and returns the same value
from a second call. -/
theorem proposal_digest_cached (hash : List Nat → List Nat) (block_id : List Nat)
    (phase_counter : Nat) (final_on_qc : List Nat) (msg : hs_proposal_message)
    (hempty : msg.digest = none) :
    get_digest_to_sign hash block_id phase_counter final_on_qc
      = hash (hash (block_id ++ [phase_counter]) ++ final_on_qc) ∧
    (msg.get_proposal_digest hash).1
      = get_digest_to_sign hash msg.block_id msg.phase_counter msg.final_on_qc ∧
    (msg.get_proposal_digest hash).2.digest
      = some (get_digest_to_sign hash msg.block_id msg.phase_counter msg.final_on_qc) ∧
    ((msg.get_proposal_digest hash).2.get_proposal_digest hash).1
      = (msg.get_proposal_digest hash).1 := by
  refine ⟨rfl, ?_, ?_, ?_⟩ <;>
    simp [hs_proposal_message.get_proposal_digest, hempty]

/-- Witness for C15: a hash that sums its input bytes, and a proposal with
`block_id = [1, 2]`, `phase_counter = 3` and `final_on_qc = [4]`. -/
theorem proposal_digest_cached_witness :
    get_digest_to_sign (fun bytes => [bytes.sum % 256]) [1, 2] 3 [4]
      = (fun bytes : List Nat => [bytes.sum % 256])
          ((fun bytes : List Nat => [bytes.sum % 256]) ([1, 2] ++ [3]) ++ [4]) ∧
    ((hs_proposal_message.mk [] [1, 2] [] [4] {} 3 none).get_proposal_digest
        (fun bytes => [bytes.sum % 256])).1
      = get_digest_to_sign (fun bytes => [bytes.sum % 256])
          (hs_proposal_message.mk [] [1, 2] [] [4] {} 3 none).block_id
          (hs_proposal_message.mk [] [1, 2] [] [4] {} 3 none).phase_counter
          (hs_proposal_message.mk [] [1, 2] [] [4] {} 3 none).final_on_qc ∧
    ((hs_proposal_message.mk [] [1, 2] [] [4] {} 3 none).get_proposal_digest
        (fun bytes => [bytes.sum % 256])).2.digest
      = some (get_digest_to_sign (fun bytes => [bytes.sum % 256])
          (hs_proposal_message.mk [] [1, 2] [] [4] {} 3 none).block_id
          (hs_proposal_message.mk [] [1, 2] [] [4] {} 3 none).phase_counter
          (hs_proposal_message.mk [] [1, 2] [] [4] {} 3 none).final_on_qc) ∧
    (((hs_proposal_message.mk [] [1, 2] [] [4] {} 3 none).get_proposal_digest
        (fun bytes => [bytes.sum % 256])).2.get_proposal_digest
        (fun bytes => [bytes.sum % 256])).1
      = ((hs_proposal_message.mk [] [1, 2] [] [4] {} 3 none).get_proposal_digest
        (fun bytes => [bytes.sum % 256])).1 :=
  proposal_digest_cached (fun bytes => [bytes.sum % 256]) [1, 2] 3 [4]
    (hs_proposal_message.mk [] [1, 2] [] [4] {} 3 none) rfl

/-! ## The state cache of the pacemaker -/

/-- C16: run by one thread, `get_state` with the cached version equal to the live version
of the QC chain writes the cached finalizer state to `fs`, makes no call of
`qc_chain::get_state` and leaves the pacemaker as it was; with a cached version that
differs, it calls `qc_chain::get_state` once, sets both the cache and `fs` to the
current finalizer state of the QC chain and the cached version to the live version. -/
theorem get_state_read_through (pm : chain_pacemaker) :
    (pm._state_cache_version = pm._qc_chain.get_state_version →
      pm.get_state.1 = pm._state_cache ∧
      pm.get_state.2 = pm ∧
      pm.get_state.2._qc_chain.state_reads = pm._qc_chain.state_reads) ∧
    (pm._state_cache_version ≠ pm._qc_chain.get_state_version →
      pm.get_state.1 = pm._qc_chain._state ∧
      pm.get_state.2._state_cache = pm._qc_chain._state ∧
      pm.get_state.2._state_cache_version = pm._qc_chain.get_state_version ∧
      pm.get_state.2._qc_chain.state_reads = pm._qc_chain.state_reads + 1 ∧
      pm.get_state.2._qc_chain._state = pm._qc_chain._state ∧
      pm.get_state.2._qc_chain._state_version = pm._qc_chain._state_version) := by
  constructor
  · intro h
    simp only [qc_chain.get_state_version] at h
    simp [chain_pacemaker.get_state, h, qc_chain.get_state_version]
  · intro h
    simp only [qc_chain.get_state_version, ne_eq] at h
    simp [chain_pacemaker.get_state, h, qc_chain.get_state, qc_chain.get_state_version]

/-! ## Branches of the fork database -/

/-- A node found under an id has that id and is a node of the tree. -/
lemma node_found (db : fork_database) (id : Nat) (p : fork_node)
    (h : db.node id = some p) : p.id = id ∧ db.mem p := by
  unfold fork_database.node at h
  split_ifs at h with hr
  · cases h
    exact ⟨hr.symm, Or.inl rfl⟩
  · have hp := List.find?_some h
    have hm := List.mem_of_find?_eq_some h
    exact ⟨by simpa using hp, Or.inr hm⟩

/-- In a fork tree every node is the one found under its id. -/
lemma node_of_mem (db : fork_database) (hwf : db.well_formed) (n : fork_node)
    (hn : db.mem n) : db.node n.id = some n := by
  rcases hn with rfl | hn
  · simp [fork_database.node]
  · exact hwf.1 n hn

/-- In a fork tree every node of the index has a parent in the tree, one block number
below it. -/
lemma parent_of_index (db : fork_database) (hwf : db.well_formed) (n : fork_node)
    (hn : n ∈ db.index) :
    ∃ p, db.node n.previous = some p ∧ n.block_num = p.block_num + 1 ∧ db.mem p := by
  have h := hwf.2 n hn
  cases hp : db.node n.previous with
  | none => rw [hp] at h; cases h
  | some p =>
    rw [hp] at h
    simp only [Option.map_some', Option.some.injEq] at h
    exact ⟨p, rfl, h.symm, (node_found db _ p hp).2⟩

/-- In a fork tree every node of the index is above the root. -/
lemma index_above_root (db : fork_database) (hwf : db.well_formed) :
    ∀ (k : Nat) (n : fork_node), n.block_num = k → n ∈ db.index →
      db.root.block_num < n.block_num := by
  intro k
  induction k using Nat.strong_induction_on with
  | _ k ih =>
    intro n hk hn
    obtain ⟨p, _, hbn, hmem⟩ := parent_of_index db hwf n hn
    rcases hmem with rfl | hp
    · omega
    · have := ih p.block_num (by omega) p rfl hp
      omega

/-- Two nodes of a fork tree with the same id are the same node. -/
lemma mem_same_id (db : fork_database) (hwf : db.well_formed) (a b : fork_node)
    (ha : db.mem a) (hb : db.mem b) (hid : a.id = b.id) : a = b := by
  have h1 := node_of_mem db hwf a ha
  have h2 := node_of_mem db hwf b hb
  rw [hid, h2] at h1
  cases h1
  rfl

/-- A node of a fork tree above the block number of the root is a node of the index. -/
lemma mem_above_root (db : fork_database) (n : fork_node) (hn : db.mem n)
    (h : db.root.block_num < n.block_num) : n ∈ db.index := by
  rcases hn with rfl | hn
  · omega
  · exact hn

/-- The first phase ends: from a node of a fork tree the walk down to a height not below
the root returns a branch that ends on a node of the tree at that height, or on the
starting node when that is not above the height. -/
lemma walk_down_spec (db : fork_database) (hwf : db.well_formed) (height : Nat)
    (hh : db.root.block_num ≤ height) :
    ∀ (fuel : Nat) (n : fork_node), db.mem n → n.block_num - height < fuel →
      ∃ l e, db.walk_down fuel n height = .ok (l, e) ∧ db.is_branch l n e ∧ db.mem e ∧
        (n.block_num ≤ height → e = n ∧ l = []) ∧
        (height ≤ n.block_num → e.block_num = height) := by
  intro fuel
  induction fuel with
  | zero => intro n _ hf; omega
  | succ fuel ih =>
    intro n hn hf
    unfold fork_database.walk_down
    by_cases hgt : n.block_num > height
    · have hidx := mem_above_root db n hn (by omega)
      obtain ⟨p, hp, hbn, hpm⟩ := parent_of_index db hwf n hidx
      obtain ⟨l, e, hw, hbr, hem, _, hhe⟩ := ih p hpm (by omega)
      refine ⟨n :: l, e, ?_, ?_, hem, ?_, ?_⟩
      · simp [hgt, hp, hw]
      · exact ⟨rfl, p, hp, hbn, hbr⟩
      · intro hle; omega
      · intro _; exact hhe (by omega)
    · refine ⟨[], n, ?_, rfl, hn, ?_, ?_⟩
      · simp [hgt]
      · intro _; exact ⟨rfl, rfl⟩
      · intro hle; omega

/-- No entry of a branch is above its start. -/
lemma is_branch_block_num_le (db : fork_database) (c : fork_node) :
    ∀ (l : List fork_node) (n : fork_node), db.is_branch l n c →
      ∀ x ∈ l, x.block_num ≤ n.block_num := by
  intro l
  induction l with
  | nil => intro n _ x hx; cases hx
  | cons y l ih =>
    intro n h x hx
    obtain ⟨hy, p, _, hbn, hrest⟩ := h
    subst hy
    rcases List.mem_cons.mp hx with rfl | hx
    · exact Nat.le_refl _
    · have := ih p hrest x hx
      omega

/-- The second phase ends: from two nodes of a fork tree at the same height the
lockstep walk returns two branches that stop before one and the same node. -/
lemma lockstep_spec (db : fork_database) (hwf : db.well_formed) :
    ∀ (fuel : Nat) (a b : fork_node), db.mem a → db.mem b → a.block_num = b.block_num →
      a.block_num - db.root.block_num < fuel →
      ∃ la lb c, db.lockstep fuel a b = .ok (la, lb) ∧ db.is_branch la a c ∧
        db.is_branch lb b c ∧ db.mem c ∧ ∀ z ∈ la, z ∉ lb := by
  intro fuel
  induction fuel with
  | zero => intro a b _ _ _ hf; omega
  | succ fuel ih =>
    intro a b ha hb hbn hf
    unfold fork_database.lockstep
    by_cases hid : a.id = b.id
    · have hab := mem_same_id db hwf a b ha hb hid
      subst hab
      exact ⟨[], [], a, by simp, rfl, rfl, ha, by simp⟩
    · have ha_idx : a ∈ db.index := by
        rcases ha with rfl | ha
        · exfalso
          rcases hb with rfl | hb
          · exact hid rfl
          · have := index_above_root db hwf b.block_num b rfl hb
            omega
        · exact ha
      have hb_idx : b ∈ db.index := by
        rcases hb with rfl | hb
        · exfalso
          have := index_above_root db hwf a.block_num a rfl ha_idx
          omega
        · exact hb
      have hra := index_above_root db hwf a.block_num a rfl ha_idx
      obtain ⟨pa, hpa, hbna, hpam⟩ := parent_of_index db hwf a ha_idx
      obtain ⟨pb, hpb, hbnb, hpbm⟩ := parent_of_index db hwf b hb_idx
      obtain ⟨la, lb, c, hl, hbra, hbrb, hcm, hdis⟩ :=
        ih pa pb hpam hpbm (by omega) (by omega)
      refine ⟨a :: la, b :: lb, c, ?_, ⟨rfl, pa, hpa, hbna, hbra⟩, ⟨rfl, pb, hpb, hbnb, hbrb⟩,
        hcm, ?_⟩
      · simp [hid, hpa, hpb, hl]
      · intro z hz hz'
        rcases List.mem_cons.mp hz with rfl | hz
        · rcases List.mem_cons.mp hz' with hzb | hz'
          · exact hid (by rw [hzb])
          · have := is_branch_block_num_le db c lb pb hbrb z hz'
            omega
        · rcases List.mem_cons.mp hz' with rfl | hz'
          · have := is_branch_block_num_le db c la pa hbra z hz
            omega
          · exact hdis z hz hz'

/-- Two branches that meet end to end make one branch. -/
lemma is_branch_append (db : fork_database) (l2 : List fork_node) (e c : fork_node)
    (h2 : db.is_branch l2 e c) :
    ∀ (l1 : List fork_node) (n : fork_node), db.is_branch l1 n e →
      db.is_branch (l1 ++ l2) n c := by
  intro l1
  induction l1 with
  | nil =>
    intro n h1
    simp only [fork_database.is_branch] at h1
    subst h1
    simpa using h2
  | cons x l ih =>
    intro n h1
    obtain ⟨hx, p, hp, hbn, hrest⟩ := h1
    exact ⟨hx, p, hp, hbn, ih p hrest⟩

/-- The block number of the start of a branch is that of its stop plus its length, and
every entry of a branch is above the stop. -/
lemma is_branch_block_num (db : fork_database) (c : fork_node) :
    ∀ (l : List fork_node) (n : fork_node), db.is_branch l n c →
      n.block_num = c.block_num + l.length ∧ ∀ x ∈ l, c.block_num < x.block_num := by
  intro l
  induction l with
  | nil =>
    intro n h
    simp only [fork_database.is_branch] at h
    subst h
    simp
  | cons x l ih =>
    intro n h
    obtain ⟨hx, p, _, hbn, hrest⟩ := h
    obtain ⟨hlen, hall⟩ := ih p hrest
    subst hx
    refine ⟨by simp only [List.length_cons]; omega, ?_⟩
    intro y hy
    rcases List.mem_cons.mp hy with rfl | hy
    · omega
    · exact hall y hy

/-- A branch that is not empty begins with its start. -/
lemma is_branch_head (db : fork_database) (l : List fork_node) (n c : fork_node)
    (h : db.is_branch l n c) (hne : l ≠ []) : l.head? = some n := by
  cases l with
  | nil => exact absurd rfl hne
  | cons x l => simp [h.1]

/-- Consecutive entries of a branch are linked by `header.previous`, in descending
block-number order. -/
lemma is_branch_chain (db : fork_database) (c : fork_node) :
    ∀ (l : List fork_node) (n : fork_node), db.is_branch l n c →
      List.Chain' branch_link l := by
  intro l
  induction l with
  | nil => intro n _; exact List.chain'_nil
  | cons x l ih =>
    intro n h
    obtain ⟨hx, p, hp, hbn, hrest⟩ := h
    subst hx
    cases l with
    | nil => exact List.chain'_singleton _
    | cons y l' =>
      have hy : y = p := hrest.1
      subst hy
      refine List.Chain'.cons ?_ (ih y hrest)
      exact ⟨(node_found db _ y hp).1.symm, by omega⟩

/-- The last entry of a branch that is not empty names the stop as its previous block. -/
lemma is_branch_last (db : fork_database) (c : fork_node) :
    ∀ (l : List fork_node) (n : fork_node), db.is_branch l n c → l ≠ [] →
      ∃ x, l.getLast? = some x ∧ x.previous = c.id := by
  intro l
  induction l with
  | nil => intro n _ hne; exact absurd rfl hne
  | cons x l ih =>
    intro n h _
    obtain ⟨hx, p, hp, hbn, hrest⟩ := h
    subst hx
    cases l with
    | nil =>
      simp only [fork_database.is_branch] at hrest
      subst hrest
      exact ⟨x, by simp, (node_found db _ p hp).1.symm⟩
    | cons y l' =>
      obtain ⟨z, hz, hzc⟩ := ih p hrest (by simp)
      exact ⟨z, by rw [List.getLast?_cons_cons]; exact hz, hzc⟩

/-- No node of a fork tree is below the root. -/
lemma mem_not_below_root (db : fork_database) (hwf : db.well_formed) (n : fork_node)
    (hn : db.mem n) : db.root.block_num ≤ n.block_num := by
  rcases hn with rfl | hn
  · exact Nat.le_refl _
  · exact Nat.le_of_lt (index_above_root db hwf n.block_num n rfl hn)

/-- Two branches from the same node: the stop of the first is the stop of the second or
an ancestor of it, or it is an entry of the second. -/
lemma is_branch_compare (db : fork_database) (c d : fork_node) :
    ∀ (l2 l1 : List fork_node) (n : fork_node), db.is_branch l1 n d → db.is_branch l2 n c →
      db.is_ancestor d c ∨ d ∈ l2 := by
  intro l2
  induction l2 with
  | nil =>
    intro l1 n h1 h2
    simp only [fork_database.is_branch] at h2
    subst h2
    exact Or.inl ⟨l1, h1⟩
  | cons x l2 ih =>
    intro l1 n h1 h2
    obtain ⟨hx, p, hp, _, hrest⟩ := h2
    subst hx
    cases l1 with
    | nil =>
      simp only [fork_database.is_branch] at h1
      subst h1
      exact Or.inr (List.mem_cons_self _ _)
    | cons y l1 =>
      obtain ⟨_, p', hp', _, hrest'⟩ := h1
      rw [hp] at hp'
      cases hp'
      rcases ih l1 p hrest' hrest with h | h
      · exact Or.inl h
      · exact Or.inr (List.mem_cons_of_mem _ h)

/-- In a fork tree `fetch_branch_from` returns, for any two nodes, two branches that
start at the two nodes, stop before one and the same node of the tree, and have no
node in common. -/
lemma fetch_branch_from_spec (db : fork_database) (hwf : db.well_formed) (a b : fork_node)
    (ha : db.mem a) (hb : db.mem b) :
    ∃ ra rb c, db.fetch_branch_from a.id b.id = .ok (ra, rb) ∧
      db.is_branch ra a c ∧ db.is_branch rb b c ∧ db.mem c ∧ ∀ z ∈ ra, z ∉ rb := by
  obtain ⟨ra, a', hw1, hbr1, ha'm, h1eq, h1h⟩ :=
    walk_down_spec db hwf b.block_num (mem_not_below_root db hwf b hb) (a.block_num + 1) a ha
      (by omega)
  obtain ⟨rb, b', hw2, hbr2, hb'm, h2eq, h2h⟩ :=
    walk_down_spec db hwf a'.block_num (mem_not_below_root db hwf a' ha'm) (b.block_num + 1) b
      hb (by omega)
  have hsame : a'.block_num = b'.block_num := by
    by_cases hle : b.block_num ≤ a.block_num
    · have h1 := h1h hle
      obtain ⟨hb', _⟩ := h2eq (by omega)
      rw [hb']
      exact h1
    · obtain ⟨ha', _⟩ := h1eq (by omega)
      have h2 := h2h (by rw [ha']; omega)
      exact h2.symm
  have hone : ra = [] ∨ rb = [] := by
    by_cases hle : b.block_num ≤ a.block_num
    · have h1 := h1h hle
      exact Or.inr (h2eq (by omega)).2
    · exact Or.inl (h1eq (by omega)).2
  obtain ⟨la, lb, c, hl, hbra, hbrb, hcm, hdis⟩ :=
    lockstep_spec db hwf (a'.block_num + 1) a' b' ha'm hb'm hsame (by omega)
  refine ⟨ra ++ la, rb ++ lb, c, ?_, is_branch_append db la a' c hbra ra a hbr1,
    is_branch_append db lb b' c hbrb rb b hbr2, hcm, ?_⟩
  · unfold fork_database.fetch_branch_from
    simp [node_of_mem db hwf a ha, node_of_mem db hwf b hb, hw1, hw2, hl]
  · intro z hz hz'
    rcases List.mem_append.mp hz with hz | hz
    · have h1 := (is_branch_block_num db a' ra a hbr1).2 z hz
      rcases List.mem_append.mp hz' with hz' | hz'
      · rcases hone with h | h
        · rw [h] at hz; cases hz
        · rw [h] at hz'; cases hz'
      · have h2 := is_branch_block_num_le db c lb b' hbrb z hz'
        omega
    · have h1 := is_branch_block_num_le db c la a' hbra z hz
      rcases List.mem_append.mp hz' with hz' | hz'
      · have h2 := (is_branch_block_num db b' rb b hbr2).2 z hz'
        omega
      · exact hdis z hz hz'

/-- C13: in a fork tree, for two nodes `a` and `b` neither of which is the other or an
ancestor of the other, `fetch_branch_from(a, b)` returns two sequences, the first
starting at `a` and the second at `b`, each following `header.previous` in descending
block-number order down to, and not including, the common ancestor `c` at which the
two branches fork: `c` is an ancestor of both, no node is in both sequences, every
common ancestor of `a` and `b` is `c` or an ancestor of `c`, `c` is in neither sequence,
and the last elements of the two sequences are two different nodes with the same
parent `c`. -/
theorem fetch_branch_from_common_parent (db : fork_database) (hwf : db.well_formed)
    (a b : fork_node) (ha : db.mem a) (hb : db.mem b)
    (hab : ¬ db.is_ancestor a b) (hba : ¬ db.is_ancestor b a) :
    ∃ ra rb c, db.fetch_branch_from a.id b.id = .ok (ra, rb) ∧
      ra.head? = some a ∧ rb.head? = some b ∧
      List.Chain' branch_link ra ∧ List.Chain' branch_link rb ∧
      db.is_branch ra a c ∧ db.is_branch rb b c ∧
      (∀ z ∈ ra, z ∉ rb) ∧
      (∀ d, db.is_ancestor d a → db.is_ancestor d b → db.is_ancestor d c) ∧
      c ∉ ra ∧ c ∉ rb ∧
      ∃ x y, ra.getLast? = some x ∧ rb.getLast? = some y ∧ x ≠ y ∧
        x.previous = y.previous ∧ x.previous = c.id ∧ db.node x.previous = some c := by
  obtain ⟨ra, rb, c, hres, hbra, hbrb, hcm, hdis⟩ := fetch_branch_from_spec db hwf a b ha hb
  have hra : ra ≠ [] := by
    intro h
    subst h
    simp only [fork_database.is_branch] at hbra
    subst hbra
    exact hab ⟨rb, hbrb⟩
  have hrb : rb ≠ [] := by
    intro h
    subst h
    simp only [fork_database.is_branch] at hbrb
    subst hbrb
    exact hba ⟨ra, hbra⟩
  obtain ⟨x, hx, hxc⟩ := is_branch_last db c ra a hbra hra
  obtain ⟨y, hy, hyc⟩ := is_branch_last db c rb b hbrb hrb
  have hxmem : x ∈ ra := List.mem_of_getLast?_eq_some hx
  have hymem : y ∈ rb := List.mem_of_getLast?_eq_some hy
  refine ⟨ra, rb, c, hres, is_branch_head db ra a c hbra hra, is_branch_head db rb b c hbrb hrb,
    is_branch_chain db c ra a hbra, is_branch_chain db c rb b hbrb, hbra, hbrb, hdis, ?_, ?_, ?_,
    x, y, hx, hy, ?_, by rw [hxc, hyc], hxc, ?_⟩
  · rintro d ⟨l1, h1⟩ ⟨l2, h2⟩
    rcases is_branch_compare db c d ra l1 a h1 hbra with h | h
    · exact h
    · rcases is_branch_compare db c d rb l2 b h2 hbrb with h' | h'
      · exact h'
      · exact absurd h' (hdis d h)
  · intro hmem
    have := (is_branch_block_num db c ra a hbra).2 c hmem
    omega
  · intro hmem
    have := (is_branch_block_num db c rb b hbrb).2 c hmem
    omega
  · intro hxy
    rw [hxy] at hxmem
    exact hdis y hxmem hymem
  · rw [hxc]
    exact node_of_mem db hwf c hcm

/-- Witness for C13: the scenario of the spec, root `R` (id 100) with `A1 → A2 → A3`
(ids 11, 12, 13) and `B1 → B2` (ids 21, 22), where `fetch_branch_from(A3, B2)` is
`([A3, A2, A1], [B2, B1])`; and the same two branches forking at a node `C` (id 1)
above the root, where the result is again `([A3, A2, A1], [B2, B1])` and `C`, their
common parent, is in neither sequence. -/
theorem fetch_branch_from_common_parent_witness :
    (fork_database.mk (fork_node.mk 100 99 0 true)
        [fork_node.mk 11 100 1 false, fork_node.mk 12 11 2 false, fork_node.mk 13 12 3 false,
         fork_node.mk 21 100 1 false, fork_node.mk 22 21 2 false]).fetch_branch_from 13 22
      = .ok ([fork_node.mk 13 12 3 false, fork_node.mk 12 11 2 false,
              fork_node.mk 11 100 1 false],
             [fork_node.mk 22 21 2 false, fork_node.mk 21 100 1 false]) ∧
    (fork_database.mk (fork_node.mk 100 99 0 true)
        [fork_node.mk 1 100 1 false,
         fork_node.mk 11 1 2 false, fork_node.mk 12 11 3 false, fork_node.mk 13 12 4 false,
         fork_node.mk 21 1 2 false, fork_node.mk 22 21 3 false]).fetch_branch_from 13 22
      = .ok ([fork_node.mk 13 12 4 false, fork_node.mk 12 11 3 false,
              fork_node.mk 11 1 2 false],
             [fork_node.mk 22 21 3 false, fork_node.mk 21 1 2 false]) ∧
    ∃ ra rb c,
      (fork_database.mk (fork_node.mk 100 99 0 true)
        [fork_node.mk 1 100 1 false,
         fork_node.mk 11 1 2 false, fork_node.mk 12 11 3 false, fork_node.mk 13 12 4 false,
         fork_node.mk 21 1 2 false, fork_node.mk 22 21 3 false]).fetch_branch_from
          (fork_node.mk 13 12 4 false).id (fork_node.mk 22 21 3 false).id = .ok (ra, rb) ∧
      ra.head? = some (fork_node.mk 13 12 4 false) ∧
      rb.head? = some (fork_node.mk 22 21 3 false) ∧
      List.Chain' branch_link ra ∧ List.Chain' branch_link rb ∧
      (fork_database.mk (fork_node.mk 100 99 0 true)
        [fork_node.mk 1 100 1 false,
         fork_node.mk 11 1 2 false, fork_node.mk 12 11 3 false, fork_node.mk 13 12 4 false,
         fork_node.mk 21 1 2 false, fork_node.mk 22 21 3 false]).is_branch ra
          (fork_node.mk 13 12 4 false) c ∧
      (fork_database.mk (fork_node.mk 100 99 0 true)
        [fork_node.mk 1 100 1 false,
         fork_node.mk 11 1 2 false, fork_node.mk 12 11 3 false, fork_node.mk 13 12 4 false,
         fork_node.mk 21 1 2 false, fork_node.mk 22 21 3 false]).is_branch rb
          (fork_node.mk 22 21 3 false) c ∧
      (∀ z ∈ ra, z ∉ rb) ∧
      (∀ d,
        (fork_database.mk (fork_node.mk 100 99 0 true)
          [fork_node.mk 1 100 1 false,
           fork_node.mk 11 1 2 false, fork_node.mk 12 11 3 false, fork_node.mk 13 12 4 false,
           fork_node.mk 21 1 2 false, fork_node.mk 22 21 3 false]).is_ancestor d
            (fork_node.mk 13 12 4 false) →
        (fork_database.mk (fork_node.mk 100 99 0 true)
          [fork_node.mk 1 100 1 false,
           fork_node.mk 11 1 2 false, fork_node.mk 12 11 3 false, fork_node.mk 13 12 4 false,
           fork_node.mk 21 1 2 false, fork_node.mk 22 21 3 false]).is_ancestor d
            (fork_node.mk 22 21 3 false) →
        (fork_database.mk (fork_node.mk 100 99 0 true)
          [fork_node.mk 1 100 1 false,
           fork_node.mk 11 1 2 false, fork_node.mk 12 11 3 false, fork_node.mk 13 12 4 false,
           fork_node.mk 21 1 2 false, fork_node.mk 22 21 3 false]).is_ancestor d c) ∧
      c ∉ ra ∧ c ∉ rb ∧
      ∃ x y, ra.getLast? = some x ∧ rb.getLast? = some y ∧ x ≠ y ∧
        x.previous = y.previous ∧ x.previous = c.id ∧
        (fork_database.mk (fork_node.mk 100 99 0 true)
          [fork_node.mk 1 100 1 false,
           fork_node.mk 11 1 2 false, fork_node.mk 12 11 3 false, fork_node.mk 13 12 4 false,
           fork_node.mk 21 1 2 false, fork_node.mk 22 21 3 false]).node x.previous = some c :=
  ⟨rfl, rfl,
    fetch_branch_from_common_parent
      (fork_database.mk (fork_node.mk 100 99 0 true)
        [fork_node.mk 1 100 1 false,
         fork_node.mk 11 1 2 false, fork_node.mk 12 11 3 false, fork_node.mk 13 12 4 false,
         fork_node.mk 21 1 2 false, fork_node.mk 22 21 3 false])
      (by
        constructor
        · intro n hn
          simp only [List.mem_cons, List.mem_singleton, List.not_mem_nil, or_false] at hn
          rcases hn with rfl | rfl | rfl | rfl | rfl | rfl <;> rfl
        · intro n hn
          simp only [List.mem_cons, List.mem_singleton, List.not_mem_nil, or_false] at hn
          rcases hn with rfl | rfl | rfl | rfl | rfl | rfl <;> rfl)
      (fork_node.mk 13 12 4 false) (fork_node.mk 22 21 3 false)
      (Or.inr (by simp)) (Or.inr (by simp))
      (by
        rintro ⟨l, hl⟩
        have h := (is_branch_block_num _ _ l _ hl).1
        simp only at h
        omega)
      (by
        rintro ⟨l, hl⟩
        have h := (is_branch_block_num _ _ l _ hl).1
        simp only at h
        have hlen : l.length = 1 := by omega
        match l, hl, hlen with
        | [x], hl, _ =>
          obtain ⟨_, p, hp, _, hrest⟩ := hl
          simp only [fork_database.is_branch] at hrest
          subst hrest
          revert hp
          decide)⟩

/-! ## The order of the votes -/

/-- The tallies after one `add_vote` call. -/
lemma tally_add_vote (bls : bls_primitives) (p : pending_quorum_certificate) (c : vote_call) :
    (p.add_vote bls c.strong c.proposal_digest c.index c.pubkey c.sig c.weight).2.tally
      = p.tally.add bls c := by
  unfold pending_quorum_certificate.add_vote vote_tally.add pending_quorum_certificate.tally
  by_cases hv : bls.verify c.pubkey c.proposal_digest c.sig = true
  · cases hs : c.strong
    · by_cases hd : p._weak_votes._bitset[c.index]?.getD false = true <;> simp [hv, hd]
    · by_cases hd : p._strong_votes._bitset[c.index]?.getD false = true <;> simp [hv, hd]
  · simp [hv]

/-- The tallies after a sequence of `add_vote` calls. -/
lemma tally_add_votes (bls : bls_primitives) (calls : List vote_call) :
    ∀ p : pending_quorum_certificate,
      (p.add_votes bls calls).tally = calls.foldl (vote_tally.add bls) p.tally := by
  induction calls with
  | nil => intro p; rfl
  | cons c cs ih =>
    intro p
    simp only [pending_quorum_certificate.add_votes, List.foldl_cons]
    rw [ih, tally_add_vote]

/-- Two votes that differ in flavor or in finalizer index can be tallied in either
order. -/
lemma tally_add_comm (bls : bls_primitives) (t : vote_tally) (c1 c2 : vote_call)
    (hne : (c1.strong, c1.index) ≠ (c2.strong, c2.index)) :
    (t.add bls c1).add bls c2 = (t.add bls c2).add bls c1 := by
  unfold vote_tally.add
  by_cases hv1 : bls.verify c1.pubkey c1.proposal_digest c1.sig = true <;>
  by_cases hv2 : bls.verify c2.pubkey c2.proposal_digest c2.sig = true <;>
  simp only [hv1, hv2, Bool.not_true, Bool.not_false, Bool.false_eq_true, if_true, if_false,
    Bool.not_eq_true, ite_true, ite_false]
  cases hs1 : c1.strong <;> cases hs2 : c2.strong <;>
    simp only [Bool.false_eq_true, if_true, if_false, ite_true, ite_false]
  · have hi : c1.index ≠ c2.index := by
      intro h; apply hne; rw [hs1, hs2, h]
    by_cases hd1 : t.weak_bits[c1.index]?.getD false = true <;>
    by_cases hd2 : t.weak_bits[c2.index]?.getD false = true <;>
    simp [hd1, hd2, List.getElem?_set_ne hi, List.getElem?_set_ne hi.symm,
      List.set_comm _ _ _ hi, Nat.add_right_comm]
  · by_cases hd1 : t.weak_bits[c1.index]?.getD false = true <;>
    by_cases hd2 : t.strong_bits[c2.index]?.getD false = true <;>
    simp [hd1, hd2]
  · by_cases hd1 : t.strong_bits[c1.index]?.getD false = true <;>
    by_cases hd2 : t.weak_bits[c2.index]?.getD false = true <;>
    simp [hd1, hd2]
  · have hi : c1.index ≠ c2.index := by
      intro h; apply hne; rw [hs1, hs2, h]
    by_cases hd1 : t.strong_bits[c1.index]?.getD false = true <;>
    by_cases hd2 : t.strong_bits[c2.index]?.getD false = true <;>
    simp [hd1, hd2, List.getElem?_set_ne hi, List.getElem?_set_ne hi.symm,
      List.set_comm _ _ _ hi, Nat.add_right_comm]

/-- Two sequences of votes that are permutations of one another, with distinct pairs of
flavor and finalizer index, leave the same tallies. -/
lemma tally_perm (bls : bls_primitives) (p : pending_quorum_certificate)
    (l1 l2 : List vote_call) (hperm : l1.Perm l2)
    (hdist : (l1.map fun c => (c.strong, c.index)).Nodup) :
    (p.add_votes bls l1).tally = (p.add_votes bls l2).tally := by
  rw [tally_add_votes, tally_add_votes]
  refine List.Perm.foldl_eq' hperm ?_ p.tally
  intro x hx y hy t
  by_cases hxy : x = y
  · rw [hxy]
  · exact tally_add_comm bls t x y
      (fun hkey => hxy (List.inj_on_of_nodup_map hdist hx hy hkey))

/-- While the weak sum stays within its bound, one reading of the table on sums that
have not fallen leads from the settled state of the old sums to that of the new. -/
lemma transition_settled (q m s w s' w' : Nat) (hs : s ≤ s') (hw : w ≤ w') (hm : w' ≤ m) :
    transition q m s' w' (settled_state q s w) = settled_state q s' w' := by
  unfold settled_state
  by_cases h1 : q ≤ s
  · have h1' : q ≤ s' := by omega
    simp [h1, h1', transition]
  · by_cases h2 : q ≤ w + s
    · have h2' : q ≤ w' + s' := by omega
      have hm' : ¬ m < w' := by omega
      by_cases h3 : q ≤ s' <;> simp [h1, h2, h2', h3, hm', transition]
    · have hm' : ¬ m < w' := by omega
      by_cases h3 : q ≤ s' <;> by_cases h4 : q ≤ w' + s' <;>
        simp [h1, h2, h3, h4, hm, hm', transition]

/-- While the weak sum stays within its bound, one reading of the table leads from
`unrestricted` to the settled state of the sums. -/
lemma transition_unrestricted (q m s' w' : Nat) (hm : w' ≤ m) :
    transition q m s' w' .unrestricted = settled_state q s' w' := by
  have hm' : ¬ m < w' := by omega
  unfold settled_state
  by_cases h3 : q ≤ s' <;> by_cases h4 : q ≤ w' + s' <;>
    simp [h3, h4, hm, hm', transition]

/-- The weak sum does not fall in an `add_vote` call. -/
lemma add_vote_weak_sum_le (bls : bls_primitives) (p : pending_quorum_certificate)
    (strong : Bool) (digest : List Nat) (index pubkey sig weight : Nat) :
    p._weak_sum ≤ (p.add_vote bls strong digest index pubkey sig weight).2._weak_sum := by
  unfold pending_quorum_certificate.add_vote
  by_cases hv : bls.verify pubkey digest sig = true
  · cases strong
    · by_cases hd : p._weak_votes._bitset[index]?.getD false = true <;> simp [hv, hd]
    · by_cases hd : p._strong_votes._bitset[index]?.getD false = true <;> simp [hv, hd]
  · simp [hv]

/-- The weak sum does not fall in a sequence of `add_vote` calls, and the thresholds
stay. -/
lemma add_votes_weak_sum_le (bls : bls_primitives) (calls : List vote_call) :
    ∀ p : pending_quorum_certificate,
      p._weak_sum ≤ (p.add_votes bls calls)._weak_sum ∧
      (p.add_votes bls calls)._quorum = p._quorum ∧
      (p.add_votes bls calls)._max_weak_sum_before_weak_final
        = p._max_weak_sum_before_weak_final := by
  induction calls with
  | nil => intro p; exact ⟨Nat.le_refl _, rfl, rfl⟩
  | cons c cs ih =>
    intro p
    simp only [pending_quorum_certificate.add_votes]
    obtain ⟨hq, hm⟩ := add_vote_keeps_thresholds bls p c.strong c.proposal_digest c.index
      c.pubkey c.sig c.weight
    obtain ⟨hle, iq, im⟩ := ih (p.add_vote bls c.strong c.proposal_digest c.index c.pubkey
      c.sig c.weight).2
    exact ⟨Nat.le_trans (add_vote_weak_sum_le bls p _ _ _ _ _ _) hle, iq.trans hq, im.trans hm⟩

/-- An accumulator in the settled state of its sums is, after one more call that keeps
the weak sum within its bound, in the settled state of its new sums. -/
lemma add_vote_settled (bls : bls_primitives) (p : pending_quorum_certificate)
    (strong : Bool) (digest : List Nat) (index pubkey sig weight : Nat)
    (hst : p._state = settled_state p._quorum p._strong_sum p._weak_sum)
    (hm : (p.add_vote bls strong digest index pubkey sig weight).2._weak_sum
      ≤ p._max_weak_sum_before_weak_final) :
    (p.add_vote bls strong digest index pubkey sig weight).2._state
      = settled_state p._quorum
          (p.add_vote bls strong digest index pubkey sig weight).2._strong_sum
          (p.add_vote bls strong digest index pubkey sig weight).2._weak_sum := by
  unfold pending_quorum_certificate.add_vote at hm ⊢
  by_cases hv : bls.verify pubkey digest sig = true
  · cases strong
    · by_cases hd : p._weak_votes._bitset[index]?.getD false = true
      · simpa [hv, hd] using hst
      · simp only [hv, hd, Bool.not_true, Bool.false_eq_true, if_false, List.getD_eq_getElem?_getD]
          at hm ⊢
        simp only [hst]
        exact transition_settled _ _ _ _ _ _ (Nat.le_refl _) (Nat.le_add_right _ _) hm
    · by_cases hd : p._strong_votes._bitset[index]?.getD false = true
      · simpa [hv, hd] using hst
      · simp only [hv, hd, Bool.not_true, Bool.false_eq_true, if_false, if_true,
          List.getD_eq_getElem?_getD] at hm ⊢
        simp only [hst]
        exact transition_settled _ _ _ _ _ _ (Nat.le_add_right _ _) (Nat.le_refl _) hm
  · simpa [hv] using hst

/-- The settled state is kept along a sequence of calls whose last weak sum is within
its bound. -/
lemma add_votes_settled (bls : bls_primitives) (calls : List vote_call) :
    ∀ p : pending_quorum_certificate,
      p._state = settled_state p._quorum p._strong_sum p._weak_sum →
      (p.add_votes bls calls)._weak_sum ≤ p._max_weak_sum_before_weak_final →
      (p.add_votes bls calls)._state
        = settled_state p._quorum (p.add_votes bls calls)._strong_sum
            (p.add_votes bls calls)._weak_sum := by
  induction calls with
  | nil => intro p hst _; exact hst
  | cons c cs ih =>
    intro p hst hm
    simp only [pending_quorum_certificate.add_votes] at hm ⊢
    obtain ⟨hq, hmax⟩ := add_vote_keeps_thresholds bls p c.strong c.proposal_digest c.index
      c.pubkey c.sig c.weight
    obtain ⟨hle, _, _⟩ := add_votes_weak_sum_le bls cs
      (p.add_vote bls c.strong c.proposal_digest c.index c.pubkey c.sig c.weight).2
    have hstep := add_vote_settled bls p c.strong c.proposal_digest c.index c.pubkey c.sig
      c.weight hst (Nat.le_trans hle hm)
    rw [← hq] at hstep
    have := ih _ hstep (by rw [hmax]; exact hm)
    rw [hq] at this
    exact this

/-- The first vote on a fresh accumulator, its signature verifying, is accepted and
leads to the settled state of the sums when the weak sum stays within its bound. -/
lemma add_vote_fresh (bls : bls_primitives) (n q m : Nat) (c : vote_call)
    (hv : bls.verify c.pubkey c.proposal_digest c.sig = true)
    (hm : ((pending_quorum_certificate.create n q m).add_vote bls c.strong c.proposal_digest
      c.index c.pubkey c.sig c.weight).2._weak_sum ≤ m) :
    ((pending_quorum_certificate.create n q m).add_vote bls c.strong c.proposal_digest
      c.index c.pubkey c.sig c.weight).2._state
      = settled_state q
          ((pending_quorum_certificate.create n q m).add_vote bls c.strong c.proposal_digest
            c.index c.pubkey c.sig c.weight).2._strong_sum
          ((pending_quorum_certificate.create n q m).add_vote bls c.strong c.proposal_digest
            c.index c.pubkey c.sig c.weight).2._weak_sum := by
  have hbit : ∀ i : Nat, (List.replicate n false)[i]?.getD false = false := by
    intro i
    by_cases hi : i < n
    · simp [List.getElem?_replicate, hi]
    · simp [List.getElem?_replicate, hi]
  unfold pending_quorum_certificate.add_vote at hm ⊢
  cases hs : c.strong
  · simp only [hs, hv, pending_quorum_certificate.create, votes_t.resize, Bool.not_true,
      Bool.false_eq_true, if_false, List.take_nil, List.nil_append, List.length_nil,
      Nat.sub_zero, List.getD_eq_getElem?_getD, hbit] at hm ⊢
    exact transition_unrestricted _ _ _ _ hm
  · simp only [hs, hv, pending_quorum_certificate.create, votes_t.resize, Bool.not_true,
      Bool.false_eq_true, if_false, if_true, List.take_nil, List.nil_append, List.length_nil,
      Nat.sub_zero, List.getD_eq_getElem?_getD, hbit] at hm ⊢
    exact transition_unrestricted _ _ _ _ hm

/-- After a non-empty sequence of verified votes on a fresh accumulator, with the weak sum
within its bound, the state is the settled state of the sums. -/
lemma add_votes_fresh_settled (bls : bls_primitives) (n q m : Nat) (l : List vote_call)
    (hne : l ≠ [])
    (hver : ∀ c ∈ l, bls.verify c.pubkey c.proposal_digest c.sig = true)
    (hm : ((pending_quorum_certificate.create n q m).add_votes bls l)._weak_sum ≤ m) :
    ((pending_quorum_certificate.create n q m).add_votes bls l)._state
      = settled_state q ((pending_quorum_certificate.create n q m).add_votes bls l)._strong_sum
          ((pending_quorum_certificate.create n q m).add_votes bls l)._weak_sum := by
  cases l with
  | nil => exact absurd rfl hne
  | cons c cs =>
    simp only [pending_quorum_certificate.add_votes] at hm ⊢
    obtain ⟨hq, hmax⟩ := add_vote_keeps_thresholds bls (pending_quorum_certificate.create n q m)
      c.strong c.proposal_digest c.index c.pubkey c.sig c.weight
    have hq' : ((pending_quorum_certificate.create n q m).add_vote bls c.strong
        c.proposal_digest c.index c.pubkey c.sig c.weight).2._quorum = q := hq
    have hmax' : ((pending_quorum_certificate.create n q m).add_vote bls c.strong
        c.proposal_digest c.index c.pubkey c.sig c.weight).2._max_weak_sum_before_weak_final
        = m := hmax
    obtain ⟨hle, _, _⟩ := add_votes_weak_sum_le bls cs
      ((pending_quorum_certificate.create n q m).add_vote bls c.strong c.proposal_digest
        c.index c.pubkey c.sig c.weight).2
    have hfirst := add_vote_fresh bls n q m c (hver c (List.mem_cons_self _ _))
      (Nat.le_trans hle hm)
    have hfirst' : ((pending_quorum_certificate.create n q m).add_vote bls c.strong
        c.proposal_digest c.index c.pubkey c.sig c.weight).2._state
        = settled_state
            ((pending_quorum_certificate.create n q m).add_vote bls c.strong
              c.proposal_digest c.index c.pubkey c.sig c.weight).2._quorum
            ((pending_quorum_certificate.create n q m).add_vote bls c.strong
              c.proposal_digest c.index c.pubkey c.sig c.weight).2._strong_sum
            ((pending_quorum_certificate.create n q m).add_vote bls c.strong
              c.proposal_digest c.index c.pubkey c.sig c.weight).2._weak_sum := by
      rw [hq']
      exact hfirst
    have := add_votes_settled bls cs _ hfirst' (by rw [hmax']; exact hm)
    rw [hq'] at this
    exact this

/-- Read once per accepted vote, the table lets the arrival order show in the state:
with four finalizers of weight 1, quorum 3 and `max_weak_sum_before_weak_final` 1, the
votes weak(0), weak(1), strong(2) end in `weak_final`, and the same votes in the order
strong(2), weak(0), weak(1) end in `restricted`, with the weak and strong sums together
at the quorum. -/
lemma accumulator_state_depends_on_order :
    List.Perm
      [vote_call.mk false [] 0 0 1 1, vote_call.mk false [] 1 1 1 1, vote_call.mk true [] 2 2 1 1]
      [vote_call.mk true [] 2 2 1 1, vote_call.mk false [] 0 0 1 1, vote_call.mk false [] 1 1 1 1] ∧
    ((pending_quorum_certificate.create 4 3 1).add_votes
        (bls_primitives.mk (fun _ _ _ => true) (fun a b => a + b))
        [vote_call.mk false [] 0 0 1 1, vote_call.mk false [] 1 1 1 1,
         vote_call.mk true [] 2 2 1 1])._state = .weak_final ∧
    ((pending_quorum_certificate.create 4 3 1).add_votes
        (bls_primitives.mk (fun _ _ _ => true) (fun a b => a + b))
        [vote_call.mk true [] 2 2 1 1, vote_call.mk false [] 0 0 1 1,
         vote_call.mk false [] 1 1 1 1])._state = .restricted ∧
    ((pending_quorum_certificate.create 4 3 1).add_votes
        (bls_primitives.mk (fun _ _ _ => true) (fun a b => a + b))
        [vote_call.mk false [] 0 0 1 1, vote_call.mk false [] 1 1 1 1,
         vote_call.mk true [] 2 2 1 1])._state
      ≠ ((pending_quorum_certificate.create 4 3 1).add_votes
        (bls_primitives.mk (fun _ _ _ => true) (fun a b => a + b))
        [vote_call.mk true [] 2 2 1 1, vote_call.mk false [] 0 0 1 1,
         vote_call.mk false [] 1 1 1 1])._state := by
  refine ⟨by decide, by decide, by decide, by decide⟩

/-- Read once per accepted vote, the table still gives the same sums, bitsets and, while
the weak sum is within `max_weak_sum_before_weak_final`, the same state to two
sequences of verified votes that are permutations of one another with distinct pairs
of flavor and finalizer index. -/
lemma accumulator_order_independent (bls : bls_primitives) (n q m : Nat)
    (l1 l2 : List vote_call) (hperm : l1.Perm l2)
    (hdist : (l1.map fun c => (c.strong, c.index)).Nodup)
    (hver : ∀ c ∈ l1, bls.verify c.pubkey c.proposal_digest c.sig = true) :
    ((pending_quorum_certificate.create n q m).add_votes bls l1)._strong_sum
      = ((pending_quorum_certificate.create n q m).add_votes bls l2)._strong_sum ∧
    ((pending_quorum_certificate.create n q m).add_votes bls l1)._weak_sum
      = ((pending_quorum_certificate.create n q m).add_votes bls l2)._weak_sum ∧
    ((pending_quorum_certificate.create n q m).add_votes bls l1)._strong_votes._bitset
      = ((pending_quorum_certificate.create n q m).add_votes bls l2)._strong_votes._bitset ∧
    ((pending_quorum_certificate.create n q m).add_votes bls l1)._weak_votes._bitset
      = ((pending_quorum_certificate.create n q m).add_votes bls l2)._weak_votes._bitset ∧
    (((pending_quorum_certificate.create n q m).add_votes bls l1)._weak_sum ≤ m →
      ((pending_quorum_certificate.create n q m).add_votes bls l1)._state
        = ((pending_quorum_certificate.create n q m).add_votes bls l2)._state) := by
  have ht := tally_perm bls (pending_quorum_certificate.create n q m) l1 l2 hperm hdist
  have hs : ((pending_quorum_certificate.create n q m).add_votes bls l1)._strong_sum
      = ((pending_quorum_certificate.create n q m).add_votes bls l2)._strong_sum :=
    congrArg vote_tally.strong_sum ht
  have hw : ((pending_quorum_certificate.create n q m).add_votes bls l1)._weak_sum
      = ((pending_quorum_certificate.create n q m).add_votes bls l2)._weak_sum :=
    congrArg vote_tally.weak_sum ht
  refine ⟨hs, hw, congrArg vote_tally.strong_bits ht, congrArg vote_tally.weak_bits ht, ?_⟩
  intro hm
  by_cases hne : l1 = []
  · subst hne
    rw [List.Perm.nil_eq hperm]
  · have hne2 : l2 ≠ [] := by
      intro h
      subst h
      exact hne (List.Perm.eq_nil hperm)
    have hver2 : ∀ c ∈ l2, bls.verify c.pubkey c.proposal_digest c.sig = true :=
      fun c hc => hver c (hperm.mem_iff.mpr hc)
    rw [add_votes_fresh_settled bls n q m l1 hne hver hm,
      add_votes_fresh_settled bls n q m l2 hne2 hver2 (by rw [← hw]; exact hm), hs, hw]

/-! ## The order of the votes, the table recomputed until it is stable -/

/-- A third reading of the table changes nothing: two readings reach a state that no row
leaves. -/
lemma transition_until_stable_fixed (q m s w : Nat) (st : state_t) :
    transition q m s w (transition_until_stable q m s w st)
      = transition_until_stable q m s w st := by
  unfold transition_until_stable
  have d2 : (m < w ∧ ¬ w ≤ m) ∨ (¬ m < w ∧ w ≤ m) := by omega
  rcases d2 with ⟨h2, h2b⟩ | ⟨h2, h2b⟩ <;>
  by_cases h1 : q ≤ s <;> by_cases h3 : q ≤ w + s <;>
    cases st <;> simp [transition, h1, h2, h2b, h3]

end eosio.chain
